import Mathlib

/-!
The sunxi-ng NKM clock: `drivers/clk/sunxi-ng/ccu_nkm.c`.

A shallow embedding of the N-K-M factor clock of the sunxi-ng clock driver and a
verification of its specification.

Conventions of the embedding.

* `unsigned long` values are natural numbers below `ULONG_MOD = 2 ^ 64`; every
  `unsigned long` operation of the source that can wrap is written with an explicit
  `% ULONG_MOD` (`ul_mul`, `ul_sub`, `ul_add`, `ul_shl`, `ul_not`).
* The register word (`u32 reg`) is a natural number below `U32_MOD = 2 ^ 32`; an
  assignment to `reg` truncates with `% U32_MOD`.
* An `int` value is its 32-bit two's complement pattern, a natural number below
  `U32_MOD`; the `int` expressions of the source (`1 << width`, `(1 << width) - 1`) are
  computed on patterns (`int_shl_one`, `int_sub_one`) and converted to `unsigned long` by
  sign extension (`int_to_ulong`).
* A division whose divisor is zero has no result: the functions that divide return
  `Option`, and `none` stands for the division by zero of the C code.
* The memory-mapped register is passed explicitly: functions that read it take the
  word, functions that write it return the new word.
* `rational_best_approximation` (lib/rational.c) is not part of the sources at hand.
  The functions that call it take it as the parameter `rba`; `rba_contract` is the
  part of its interface the proofs rely on, and `rational_best_approximation` below is
  a model of it written from the specification, used to evaluate the code on concrete
  inputs.
-/

namespace SunxiNg

/-! ## Machine arithmetic -/

/-- Number of values of an `unsigned long` (64 bits, the `u64` of the specification). -/
def ULONG_MOD : Nat := 2 ^ 64

/-- Number of values of a `u32`. -/
def U32_MOD : Nat := 2 ^ 32

/-- Product `a * b` on `unsigned long`. -/
def ul_mul (a b : Nat) : Nat := (a * b) % ULONG_MOD

/-- Sum `a + b` on `unsigned long`. -/
def ul_add (a b : Nat) : Nat := (a + b) % ULONG_MOD

/-- Difference `a - b` on `unsigned long` (operands below `ULONG_MOD`): wraps below zero. -/
def ul_sub (a b : Nat) : Nat := (a + ULONG_MOD - b) % ULONG_MOD

/-- Shift `a << s` on `unsigned long`. -/
def ul_shl (a s : Nat) : Nat := (a <<< s) % ULONG_MOD

/-- Complement `~a` on `unsigned long` (operand below `ULONG_MOD`). -/
def ul_not (a : Nat) : Nat := ULONG_MOD - 1 - a

/-- Conversion of an `unsigned long` to `long` (two's complement), as performed by the
`return` of a function whose result type is `long`. -/
def ulong_to_long (x : Nat) : Int :=
  if x < 2 ^ 63 then (x : Int) else (x : Int) - (ULONG_MOD : Int)

/-! ## Data model -/

/-- The `struct _ccu_nkm`: the factors chosen by the search and their upper bounds. -/
structure _ccu_nkm where
  n : Nat
  max_n : Nat
  k : Nat
  max_k : Nat
  m : Nat
  max_m : Nat
deriving DecidableEq, Repr

/-- Modelled from the spec: the descriptor of one factor field (the types of the members
`n`, `k`, `m` of `struct ccu_nkm` are declared in headers that are not among the sources):
a bit position and a width inside the 32-bit register. -/
structure FactorField where
  shift : Nat
  width : Nat
deriving DecidableEq, Repr

/-- Modelled from the spec: `struct ccu_nkm` (declared in ccu_nkm.h, not among the sources),
reduced to the members the functions below read: the enable bit and the three factor
fields. -/
structure ccu_nkm where
  enable : Nat
  n : FactorField
  k : FactorField
  m : FactorField
deriving DecidableEq, Repr

/-- The bits `[shift, shift + width)` of a field lie inside the 32-bit register and the
field is not empty. -/
def FactorField.valid (f : FactorField) : Prop :=
  1 ≤ f.width ∧ f.shift + f.width ≤ 32

instance (f : FactorField) : Decidable f.valid := by
  unfold FactorField.valid; exact inferInstance

/-- Bit `i` belongs to the field. -/
def FactorField.owns (f : FactorField) (i : Nat) : Prop :=
  f.shift ≤ i ∧ i < f.shift + f.width

instance (f : FactorField) (i : Nat) : Decidable (f.owns i) := by
  unfold FactorField.owns; exact inferInstance

/-- Two fields share no bit. -/
def FactorField.disjoint (f g : FactorField) : Prop :=
  f.shift + f.width ≤ g.shift ∨ g.shift + g.width ≤ f.shift

instance (f g : FactorField) : Decidable (f.disjoint g) := by
  unfold FactorField.disjoint; exact inferInstance

/-- The configuration precondition of the specification: three non-empty fields inside the
register, pairwise without a common bit. -/
def ccu_nkm.valid (c : ccu_nkm) : Prop :=
  c.n.valid ∧ c.k.valid ∧ c.m.valid ∧
  c.n.disjoint c.k ∧ c.n.disjoint c.m ∧ c.k.disjoint c.m

instance (c : ccu_nkm) : Decidable c.valid := by
  unfold ccu_nkm.valid; exact inferInstance

/-! ## The approximation primitive -/

/-- The part of the interface of `rational_best_approximation` that the search relies on:
called with a denominator bound of at least one, it returns a numerator not above its bound
and a denominator between one and its bound. -/
def rba_contract (rba : Nat → Nat → Nat → Nat → Nat × Nat) : Prop :=
  ∀ a b max_n max_m, 1 ≤ max_m →
    (rba a b max_n max_m).1 ≤ max_n ∧
    1 ≤ (rba a b max_n max_m).2 ∧ (rba a b max_n max_m).2 ≤ max_m

/-- Distance `|x - y|` on natural numbers. -/
def abs_diff (x y : Nat) : Nat := (x - y) + (y - x)

/-- The fraction `cand` is strictly closer to `a / b` than `best` is (`b > 0`, both
denominators positive): `|a/b - n/m| < |a/b - n'/m'|` after clearing denominators. -/
def rba_closer (a b : Nat) (cand best : Nat × Nat) : Bool :=
  decide (abs_diff (a * cand.2) (cand.1 * b) * best.2 <
    abs_diff (a * best.2) (best.1 * b) * cand.2)

/-- All fractions `n / m` with `0 ≤ n ≤ max_n` and `1 ≤ m ≤ max_m`, by ascending
denominator, then ascending numerator. -/
def rba_candidates (max_n max_m : Nat) : List (Nat × Nat) :=
  (List.range' 1 max_m).flatMap fun m => (List.range (max_n + 1)).map fun n => (n, m)

/-- Modelled from the spec: `rational_best_approximation` (lib/rational.c, not among the
sources), the external numeric primitive of the search: "given a target ratio and two
independent bounds, return the numerator/denominator pair minimizing approximation error",
"the closest fraction achievable within those bounds". The fraction returned is closest to
`given_numerator / given_denominator` among those with numerator at most `max_numerator`
and denominator between 1 and `max_denominator`; of several closest pairs the first in the
order of `rba_candidates` is returned, that is the one with the smallest denominator (the
specification does not say which). -/
def rational_best_approximation (given_numerator given_denominator
    max_numerator max_denominator : Nat) : Nat × Nat :=
  (rba_candidates max_numerator max_denominator).foldl
    (fun best cand => if rba_closer given_numerator given_denominator cand best then cand
      else best)
    (0, 1)

/-! ## Best-fit search: `ccu_nkm_find_best` -/

/-- The local variables `best_rate`, `best_n`, `best_k`, `best_m` of `ccu_nkm_find_best`. -/
structure find_best_state where
  best_rate : Nat
  best_n : Nat
  best_k : Nat
  best_m : Nat
deriving DecidableEq, Repr

/-- The initial values `best_rate = 0`, `best_n = 0, best_k = 0, best_m = 0`. -/
def find_best_init : find_best_state :=
  { best_rate := 0, best_n := 0, best_k := 0, best_m := 0 }

/-- One iteration of the `for` loop of `ccu_nkm_find_best`, for the value `_k`.
`none`: the division `parent * _n * _k / _m` has a zero divisor. -/
def find_best_body (rba : Nat → Nat → Nat → Nat → Nat × Nat) (parent rate : Nat)
    (nkm : _ccu_nkm) (st : find_best_state) (_k : Nat) : Option find_best_state :=
  let r := rba (rate / _k) parent nkm.max_n nkm.max_m
  let _n := r.1
  let _m := r.2
  if _m = 0 then none
  else
    let tmp_rate := ul_mul (ul_mul parent _n) _k / _m
    if tmp_rate > rate then some st
    else if ul_sub rate tmp_rate < ul_sub rate st.best_rate then
      some { best_rate := tmp_rate, best_n := _n, best_k := _k, best_m := _m }
    else some st

/-- The `for` loop of `ccu_nkm_find_best` over the remaining values of `_k`. -/
def find_best_loop (rba : Nat → Nat → Nat → Nat → Nat × Nat) (parent rate : Nat)
    (nkm : _ccu_nkm) : List Nat → find_best_state → Option find_best_state
  | [], st => some st
  | _k :: ks, st =>
    match find_best_body rba parent rate nkm st _k with
    | none => none
    | some st1 => find_best_loop rba parent rate nkm ks st1

/-- The state of the search after `for (_k = 1; _k <= nkm->max_k; _k++)`. -/
def find_best_run (rba : Nat → Nat → Nat → Nat → Nat × Nat) (parent rate : Nat)
    (nkm : _ccu_nkm) : Option find_best_state :=
  find_best_loop rba parent rate nkm (List.range' 1 nkm.max_k) find_best_init

/-- Function `ccu_nkm_find_best(parent, rate, nkm)`: the structure `*nkm` after the call. -/
def ccu_nkm_find_best (rba : Nat → Nat → Nat → Nat → Nat × Nat) (parent rate : Nat)
    (nkm : _ccu_nkm) : Option _ccu_nkm :=
  match find_best_run rba parent rate nkm with
  | none => none
  | some st => some { nkm with n := st.best_n, k := st.best_k, m := st.best_m }

/-- The candidate rate `tmp_rate` the loop computes for `_k` (0 if the primitive returns a
zero denominator, in which case the loop has no result). -/
def cand_rate (rba : Nat → Nat → Nat → Nat → Nat × Nat) (parent rate : Nat)
    (nkm : _ccu_nkm) (_k : Nat) : Nat :=
  ul_mul (ul_mul parent (rba (rate / _k) parent nkm.max_n nkm.max_m).1) _k /
    (rba (rate / _k) parent nkm.max_n nkm.max_m).2

/-- The expression `parent * n * k / m` on `unsigned long`, for a non-zero `m`. -/
def nkm_rate (parent n k m : Nat) : Nat := ul_mul (ul_mul parent n) k / m

/-- The state the loop stores when it selects the candidate of `_k`. -/
def cand_state (rba : Nat → Nat → Nat → Nat → Nat × Nat) (parent rate : Nat)
    (nkm : _ccu_nkm) (_k : Nat) : find_best_state :=
  { best_rate := cand_rate rba parent rate nkm _k
    best_n := (rba (rate / _k) parent nkm.max_n nkm.max_m).1
    best_k := _k
    best_m := (rba (rate / _k) parent nkm.max_n nkm.max_m).2 }

/-- The rate of a selection as `ccu_nkm_round_rate` computes it, 0 for a selection whose
`m` is zero (the all-zero selection). -/
def selection_rate (parent : Nat) (sel : _ccu_nkm) : Nat :=
  if sel.m = 0 then 0 else nkm_rate parent sel.n sel.k sel.m

/-! ## Register codec -/

/-- Modelled from the spec: `GENMASK(h, l)` of linux/bitops.h (not among the sources): the word whose set bits are exactly the bits `l` to `h`, "exactly the bit range
owned by" a field when `l = shift` and `h = shift + width - 1`. -/
def GENMASK (h l : Nat) : Nat := 2 ^ (h + 1) - 2 ^ l

/-- The statement `reg &= ~GENMASK(f.width + f.shift - 1, f.shift)` of `ccu_nkm_set_rate`. -/
def field_clear (reg : Nat) (f : FactorField) : Nat :=
  (reg &&& ul_not (GENMASK (f.width + f.shift - 1) f.shift)) % U32_MOD

/-- The statement `reg |= (v - 1) << f.shift` of `ccu_nkm_set_rate`. -/
def field_set (reg : Nat) (f : FactorField) (v : Nat) : Nat :=
  (reg ||| ul_shl (ul_sub v 1) f.shift) % U32_MOD

/-- The expression `1 << w` of the source, computed in `int`: the 32-bit two's complement
pattern of the result. For `w ≤ 30` it is `2 ^ w`, for `w = 31` it is `INT_MIN` (pattern
`2 ^ 31`). For `w ≥ 32` C leaves the shift undefined; the targets with an `unsigned long`
of 64 bits take the count of a 32-bit shift modulo 32, and so does this definition. -/
def int_shl_one (w : Nat) : Nat := (1 <<< (w % 32)) % U32_MOD

/-- The expression `x - 1` computed in `int` on a 32-bit pattern, wrapping below
`INT_MIN` as the kernel is compiled. -/
def int_sub_one (x : Nat) : Nat := (x + U32_MOD - 1) % U32_MOD

/-- Conversion of an `int`, given as its 32-bit pattern, to `unsigned long`: sign
extension. -/
def int_to_ulong (x : Nat) : Nat := if x < 2 ^ 31 then x else x + (ULONG_MOD - U32_MOD)

/-- The expression `reg >> s` on a `u32`; the count of the 32-bit shift is taken modulo 32
as for `int_shl_one` (it is `s` for every position inside the register). -/
def u32_shr (reg s : Nat) : Nat := reg >>> (s % 32)

/-- The statements `x = reg >> f.shift; x &= (1 << f.width) - 1` of `ccu_nkm_recalc_rate`:
the shift is done on the `u32`, the mask `(1 << f.width) - 1` is computed in `int` and
converted to `unsigned long` for the `&=`. -/
def field_get (reg : Nat) (f : FactorField) : Nat :=
  u32_shr reg f.shift &&& int_to_ulong (int_sub_one (int_shl_one f.width))

/-! ## Clock operations -/

/-- Function `ccu_nkm_recalc_rate(hw, parent_rate)`, `reg` being the word `readl` returns.
`none`: the divisor `m + 1` is zero. -/
def ccu_nkm_recalc_rate (nkm : ccu_nkm) (parent_rate : Nat) (reg : Nat) : Option Nat :=
  let n := field_get reg nkm.n
  let k := field_get reg nkm.k
  let m := field_get reg nkm.m
  if ul_add m 1 = 0 then none
  else some (ul_mul (ul_mul parent_rate (ul_add n 1)) (ul_add k 1) / ul_add m 1)

/-- The local `_nkm` of `ccu_nkm_round_rate` and `ccu_nkm_set_rate` before the search:
the three bounds are the `int` values `1 << width` assigned to `unsigned long` members
(`2 ^ width` up to width 30, `0xFFFFFFFF80000000` at width 31); `n`, `k`, `m` are not
initialised in the source (the search overwrites them), here 0. -/
def init_nkm (nkm : ccu_nkm) : _ccu_nkm :=
  { n := 0, max_n := int_to_ulong (int_shl_one nkm.n.width),
    k := 0, max_k := int_to_ulong (int_shl_one nkm.k.width),
    m := 0, max_m := int_to_ulong (int_shl_one nkm.m.width) }

/-- The value of `*parent_rate * _nkm.n * _nkm.k / _nkm.m` in `ccu_nkm_round_rate`, before
its conversion to `long`. `none`: division by zero (in the search or in this expression). -/
def ccu_nkm_round_rate_ul (rba : Nat → Nat → Nat → Nat → Nat × Nat) (nkm : ccu_nkm)
    (rate parent_rate : Nat) : Option Nat :=
  match ccu_nkm_find_best rba parent_rate rate (init_nkm nkm) with
  | none => none
  | some _nkm =>
    if _nkm.m = 0 then none
    else some (ul_mul (ul_mul parent_rate _nkm.n) _nkm.k / _nkm.m)

/-- Function `ccu_nkm_round_rate(hw, rate, &parent_rate)`. It reads no register and writes
none. -/
def ccu_nkm_round_rate (rba : Nat → Nat → Nat → Nat → Nat × Nat) (nkm : ccu_nkm)
    (rate parent_rate : Nat) : Option Int :=
  (ccu_nkm_round_rate_ul rba nkm rate parent_rate).map ulong_to_long

/-- The register word `ccu_nkm_set_rate` writes (`writel`) when `readl` returned `reg0` and
the search returned `_nkm`. -/
def set_rate_word (nkm : ccu_nkm) (_nkm : _ccu_nkm) (reg0 : Nat) : Nat :=
  let reg := reg0
  let reg := field_clear reg nkm.n
  let reg := field_clear reg nkm.k
  let reg := field_clear reg nkm.m
  let reg := field_set reg nkm.n _nkm.n
  let reg := field_set reg nkm.k _nkm.k
  let reg := field_set reg nkm.m _nkm.m
  reg

/-- Function `ccu_nkm_set_rate(hw, rate, parent_rate)` on a register holding `reg0`: the
register word after the call and the value returned. `none`: division by zero in the
search. -/
def ccu_nkm_set_rate (rba : Nat → Nat → Nat → Nat → Nat × Nat) (nkm : ccu_nkm)
    (rate parent_rate : Nat) (reg0 : Nat) : Option (Nat × Int) :=
  match ccu_nkm_find_best rba parent_rate rate (init_nkm nkm) with
  | none => none
  | some _nkm => some (set_rate_word nkm _nkm reg0, 0)

/-! ## Gate helper -/

/-- Modelled from the spec: `ccu_gate_helper_enable` (ccu_gate.c, not among the sources):
sets the enable bit of the register. -/
def ccu_gate_helper_enable (gate : Nat) (reg : Nat) : Nat :=
  (reg ||| (1 <<< gate)) % U32_MOD

/-- Modelled from the spec: `ccu_gate_helper_disable` (ccu_gate.c, not among the sources):
clears the enable bit of the register. -/
def ccu_gate_helper_disable (gate : Nat) (reg : Nat) : Nat :=
  (reg &&& ul_not (1 <<< gate)) % U32_MOD

/-- Modelled from the spec: `ccu_gate_helper_is_enabled` (ccu_gate.c, not among the
sources): tests the enable bit of the register. -/
def ccu_gate_helper_is_enabled (gate : Nat) (reg : Nat) : Bool :=
  reg.testBit gate

/-- Function `ccu_nkm_enable(hw)`: the register word after the call. -/
def ccu_nkm_enable (nkm : ccu_nkm) (reg : Nat) : Nat :=
  ccu_gate_helper_enable nkm.enable reg

/-- Function `ccu_nkm_disable(hw)`: the register word after the call. -/
def ccu_nkm_disable (nkm : ccu_nkm) (reg : Nat) : Nat :=
  ccu_gate_helper_disable nkm.enable reg

/-- Function `ccu_nkm_is_enabled(hw)`. -/
def ccu_nkm_is_enabled (nkm : ccu_nkm) (reg : Nat) : Bool :=
  ccu_gate_helper_is_enabled nkm.enable reg

/-! ## Hardware events: lock, register accesses, stabilization wait -/

/-- One access of a clock operation to the hardware or to the shared lock. -/
inductive hw_event where
  | lock_acquire : hw_event
  | reg_read (v : Nat) : hw_event
  | reg_write (v : Nat) : hw_event
  | lock_release : hw_event
  | lock_wait (stable : Bool) : hw_event
deriving DecidableEq, Repr

/-- The hardware as an operation sees it: the word held by the register and the events so
far, oldest first. -/
structure hw_state where
  reg : Nat
  trace : List hw_event
deriving DecidableEq, Repr

/-- Modelled from the spec: `spin_lock_irqsave` on the shared lock (the kernel's lock is
not among the sources): "acquires the shared register mutual-exclusion primitive". -/
def spin_lock_irqsave (st : hw_state) : hw_state :=
  { st with trace := st.trace ++ [hw_event.lock_acquire] }

/-- Modelled from the spec: `spin_unlock_irqrestore` on the shared lock (not among the
sources): "releases the mutual exclusion". -/
def spin_unlock_irqrestore (st : hw_state) : hw_state :=
  { st with trace := st.trace ++ [hw_event.lock_release] }

/-- Modelled from the spec: `readl` (not among the sources): the register is "read ... as a
whole word"; the value read and the state after the read. -/
def readl (st : hw_state) : Nat × hw_state :=
  (st.reg, { st with trace := st.trace ++ [hw_event.reg_read st.reg] })

/-- Modelled from the spec: `writel` (not among the sources): the register is "written as a
whole word". -/
def writel (v : Nat) (st : hw_state) : hw_state :=
  { reg := v, trace := st.trace ++ [hw_event.reg_write v] }

/-- Modelled from the spec: `ccu_helper_wait_for_lock` (ccu_common.c, not among the
sources), the lock-wait primitive `wait_for_stable(timeout_budget) -> bool`: it polls the
register until the generator reports stable output or its budget is exhausted. What it
reports is the parameter `wait`, a function of the register word; it writes nothing, and
the source calls it as a statement, without using a result. -/
def ccu_helper_wait_for_lock (wait : Nat → Bool) (st : hw_state) : hw_state :=
  { st with trace := st.trace ++ [hw_event.lock_wait (wait st.reg)] }

/-- Function `ccu_nkm_recalc_rate(hw, parent_rate)` on the hardware: the value returned and
the state after the call. -/
def ccu_nkm_recalc_rate_hw (nkm : ccu_nkm) (parent_rate : Nat) (st : hw_state) :
    Option Nat × hw_state :=
  let r := readl st
  (ccu_nkm_recalc_rate nkm parent_rate r.1, r.2)

/-- Function `ccu_nkm_round_rate(hw, rate, &parent_rate)` on the hardware: the value
returned and the state after the call; the source has no register access in it. -/
def ccu_nkm_round_rate_hw (rba : Nat → Nat → Nat → Nat → Nat × Nat) (nkm : ccu_nkm)
    (rate parent_rate : Nat) (st : hw_state) : Option Int × hw_state :=
  (ccu_nkm_round_rate rba nkm rate parent_rate, st)

/-- Function `ccu_nkm_set_rate(hw, rate, parent_rate)` on the hardware, statement by
statement: the value returned and the state after the call. `none`: division by zero in
the search, before any access to the hardware. -/
def ccu_nkm_set_rate_hw (rba : Nat → Nat → Nat → Nat → Nat × Nat) (wait : Nat → Bool)
    (nkm : ccu_nkm) (rate parent_rate : Nat) (st : hw_state) : Option (Int × hw_state) :=
  match ccu_nkm_find_best rba parent_rate rate (init_nkm nkm) with
  | none => none
  | some _nkm =>
    let st := spin_lock_irqsave st
    let r := readl st
    let reg := r.1
    let st := r.2
    let reg := field_clear reg nkm.n
    let reg := field_clear reg nkm.k
    let reg := field_clear reg nkm.m
    let reg := field_set reg nkm.n _nkm.n
    let reg := field_set reg nkm.k _nkm.k
    let reg := field_set reg nkm.m _nkm.m
    let st := writel reg st
    let st := spin_unlock_irqrestore st
    let st := ccu_helper_wait_for_lock wait st
    some (0, st)

/-- The number of register writes among the events. -/
def count_writes : List hw_event → Nat
  | [] => 0
  | hw_event.reg_write _ :: es => count_writes es + 1
  | _ :: es => count_writes es

/-- Every register write among the events happens while the lock is held; `held` tells
whether the lock is held before the first event. -/
def writes_under_lock (held : Bool) : List hw_event → Bool
  | [] => true
  | hw_event.lock_acquire :: es => writes_under_lock true es
  | hw_event.lock_release :: es => writes_under_lock false es
  | hw_event.reg_write _ :: es => held && writes_under_lock held es
  | _ :: es => writes_under_lock held es

/-- Every stabilization wait among the events happens after a register write and while
the lock is not held; `held` and `written` describe the situation before the first event. -/
def waits_after_write_unlocked (held written : Bool) : List hw_event → Bool
  | [] => true
  | hw_event.lock_acquire :: es => waits_after_write_unlocked true written es
  | hw_event.lock_release :: es => waits_after_write_unlocked false written es
  | hw_event.reg_write _ :: es => waits_after_write_unlocked held true es
  | hw_event.lock_wait _ :: es => written && !held && waits_after_write_unlocked held written es
  | hw_event.reg_read _ :: es => waits_after_write_unlocked held written es

/-- The lock is held after the events; `held` tells whether it is held before them. -/
def lock_held_after (held : Bool) : List hw_event → Bool
  | [] => held
  | hw_event.lock_acquire :: es => lock_held_after true es
  | hw_event.lock_release :: es => lock_held_after false es
  | _ :: es => lock_held_after held es

/-! ## The update of one field -/

/-- The update of one field as `ccu_nkm_set_rate` performs it (`encode_update` of the
specification): `reg &= ~GENMASK(...)` followed by `reg |= (v - 1) << shift`. -/
def encode_update (reg : Nat) (f : FactorField) (v : Nat) : Nat :=
  field_set (field_clear reg f) f v

/-! ## Concrete inputs -/

/-- A clock with the field widths of the specification's example (N: 5 bits, K: 2 bits,
M: 4 bits, hence bounds 32, 4, 16), laid out as N at bit 8, K at bit 4, M at bit 0, with
the enable bit at bit 31. -/
def example_hw : ccu_nkm :=
  { enable := 31
    n := { shift := 8, width := 5 }
    k := { shift := 4, width := 2 }
    m := { shift := 0, width := 4 } }

/-- The argument `nkm` of `ccu_nkm_find_best` for the bounds `max_n`, `max_k`, `max_m`
(`n`, `k`, `m` not yet chosen). -/
def bounds (max_n max_k max_m : Nat) : _ccu_nkm :=
  { n := 0, max_n := max_n, k := 0, max_k := max_k, m := 0, max_m := max_m }

/-- The selection `n`, `k`, `m` within the bounds `max_n`, `max_k`, `max_m`. -/
def selection (n k m max_n max_k max_m : Nat) : _ccu_nkm :=
  { n := n, max_n := max_n, k := k, max_k := max_k, m := m, max_m := max_m }

/-- A field that fills the whole register: bit 0, width 32. -/
def full_width_field : FactorField := { shift := 0, width := 32 }

/-- The example clock with its N field replaced by a field of width 32. -/
def full_width_hw : ccu_nkm :=
  { enable := 31
    n := full_width_field
    k := { shift := 4, width := 2 }
    m := { shift := 0, width := 4 } }

/-- A lock-wait primitive whose budget is exhausted whatever the register holds. -/
def lock_wait_exhausted : Nat → Bool := fun _ => false

/-! ## The search loop -/

theorem ul_sub_of_le {a b : Nat} (h : b ≤ a) (ha : a < ULONG_MOD) : ul_sub a b = a - b := by
  unfold ul_sub ULONG_MOD at *
  omega

theorem find_best_body_unfold (rba : Nat → Nat → Nat → Nat → Nat × Nat) (parent rate : Nat)
    (nkm : _ccu_nkm) (st : find_best_state) (_k : Nat) :
    find_best_body rba parent rate nkm st _k =
      if (rba (rate / _k) parent nkm.max_n nkm.max_m).2 = 0 then none
      else if cand_rate rba parent rate nkm _k > rate then some st
      else if ul_sub rate (cand_rate rba parent rate nkm _k) < ul_sub rate st.best_rate then
        some (cand_state rba parent rate nkm _k)
      else some st := rfl

/-- With a primitive that keeps its contract, an iteration never divides by zero, and it
replaces the best candidate exactly when the new one does not exceed `rate` and is strictly
larger than the best one so far. -/
theorem find_best_body_eq {rba : Nat → Nat → Nat → Nat → Nat × Nat} (parent : Nat)
    {rate : Nat} {nkm : _ccu_nkm} (hc : rba_contract rba) (hm : 1 ≤ nkm.max_m)
    (hr : rate < ULONG_MOD) (st : find_best_state) (hb : st.best_rate ≤ rate) (_k : Nat) :
    find_best_body rba parent rate nkm st _k =
      some (if cand_rate rba parent rate nkm _k ≤ rate ∧
          st.best_rate < cand_rate rba parent rate nkm _k
        then cand_state rba parent rate nkm _k else st) := by
  have h2 := (hc (rate / _k) parent nkm.max_n nkm.max_m hm).2.1
  have hne : (rba (rate / _k) parent nkm.max_n nkm.max_m).2 ≠ 0 := by omega
  rw [find_best_body_unfold, if_neg hne]
  by_cases hgt : cand_rate rba parent rate nkm _k ≤ rate
  · rw [if_neg (by omega), ul_sub_of_le hgt hr, ul_sub_of_le hb hr]
    by_cases hlt : st.best_rate < cand_rate rba parent rate nkm _k
    · rw [if_pos (by omega), if_pos ⟨hgt, hlt⟩]
    · rw [if_neg (by omega), if_neg (by tauto)]
  · rw [if_pos (by omega), if_neg (by tauto)]

theorem find_best_loop_cons (rba : Nat → Nat → Nat → Nat → Nat × Nat) (parent rate : Nat)
    (nkm : _ccu_nkm) (_k : Nat) (ks : List Nat) (st st1 : find_best_state)
    (h : find_best_body rba parent rate nkm st _k = some st1) :
    find_best_loop rba parent rate nkm (_k :: ks) st =
      find_best_loop rba parent rate nkm ks st1 := by
  simp only [find_best_loop, h]

/-- Invariant of the loop over an ascending list of values of `_k`: the loop has a result;
the best rate never exceeds `rate` and never decreases; it dominates every candidate that
does not exceed `rate`; and either nothing was selected, or the state is the candidate of
the first `_k` that reaches the best rate. -/
theorem find_best_loop_spec {rba : Nat → Nat → Nat → Nat → Nat × Nat} (parent : Nat)
    {rate : Nat} {nkm : _ccu_nkm} (hc : rba_contract rba) (hm : 1 ≤ nkm.max_m)
    (hr : rate < ULONG_MOD) :
    ∀ (ks : List Nat) (st : find_best_state), st.best_rate ≤ rate →
      ks.Pairwise (fun a b => a < b) →
      ∃ st', find_best_loop rba parent rate nkm ks st = some st' ∧
        st'.best_rate ≤ rate ∧ st.best_rate ≤ st'.best_rate ∧
        (∀ k ∈ ks, cand_rate rba parent rate nkm k ≤ rate →
          cand_rate rba parent rate nkm k ≤ st'.best_rate) ∧
        (st' = st ∨
          (st'.best_k ∈ ks ∧ st' = cand_state rba parent rate nkm st'.best_k ∧
            st.best_rate < st'.best_rate ∧
            ∀ k ∈ ks, k < st'.best_k → cand_rate rba parent rate nkm k ≤ rate →
              cand_rate rba parent rate nkm k < st'.best_rate)) := by
  intro ks
  induction ks with
  | nil =>
    intro st hb _
    exact ⟨st, rfl, hb, le_refl _, by simp, Or.inl rfl⟩
  | cons k0 rest ih =>
    intro st hb hp
    have hp' := List.pairwise_cons.mp hp
    have hbody := find_best_body_eq parent hc hm hr st hb k0
    by_cases hsel : cand_rate rba parent rate nkm k0 ≤ rate ∧
        st.best_rate < cand_rate rba parent rate nkm k0
    · rw [if_pos hsel] at hbody
      have hb1 : (cand_state rba parent rate nkm k0).best_rate ≤ rate := hsel.1
      obtain ⟨st', e, h1, h2, h3, h4⟩ := ih (cand_state rba parent rate nkm k0) hb1 hp'.2
      have h2' : cand_rate rba parent rate nkm k0 ≤ st'.best_rate := h2
      refine ⟨st', ?_, h1, by omega, ?_, Or.inr ?_⟩
      · rw [find_best_loop_cons _ _ _ _ _ _ _ _ hbody, e]
      · intro k hk hle
        rcases List.mem_cons.mp hk with rfl | hk
        · exact h2'
        · exact h3 k hk hle
      · rcases h4 with rfl | ⟨m1, m2, m3, m4⟩
        · refine ⟨List.mem_cons_self _ _, rfl, hsel.2, ?_⟩
          intro k hk hlt _
          rcases List.mem_cons.mp hk with rfl | hk
          · exact absurd hlt (lt_irrefl _)
          · have := hp'.1 k hk
            have hlt' : k < k0 := hlt
            omega
        · have m3' : cand_rate rba parent rate nkm k0 < st'.best_rate := m3
          refine ⟨List.mem_cons_of_mem _ m1, m2, by omega, ?_⟩
          intro k hk hlt hle
          rcases List.mem_cons.mp hk with rfl | hk
          · exact m3'
          · exact m4 k hk hlt hle
    · rw [if_neg hsel] at hbody
      obtain ⟨st', e, h1, h2, h3, h4⟩ := ih st hb hp'.2
      refine ⟨st', ?_, h1, h2, ?_, ?_⟩
      · rw [find_best_loop_cons _ _ _ _ _ _ _ _ hbody, e]
      · intro k hk hle
        rcases List.mem_cons.mp hk with rfl | hk
        · have : ¬ st.best_rate < cand_rate rba parent rate nkm k := fun h => hsel ⟨hle, h⟩
          omega
        · exact h3 k hk hle
      · rcases h4 with rfl | ⟨m1, m2, m3, m4⟩
        · exact Or.inl rfl
        · refine Or.inr ⟨List.mem_cons_of_mem _ m1, m2, m3, ?_⟩
          intro k hk hlt hle
          rcases List.mem_cons.mp hk with rfl | hk
          · have : ¬ st.best_rate < cand_rate rba parent rate nkm k := fun h => hsel ⟨hle, h⟩
            omega
          · exact m4 k hk hlt hle

/-- The whole loop `for (_k = 1; _k <= nkm->max_k; _k++)`, started from the initial
values. -/
theorem find_best_run_spec {rba : Nat → Nat → Nat → Nat → Nat × Nat} (parent : Nat)
    {rate : Nat} {nkm : _ccu_nkm} (hc : rba_contract rba) (hm : 1 ≤ nkm.max_m)
    (hr : rate < ULONG_MOD) :
    ∃ st, find_best_run rba parent rate nkm = some st ∧
      st.best_rate ≤ rate ∧
      (∀ k, 1 ≤ k → k ≤ nkm.max_k → cand_rate rba parent rate nkm k ≤ rate →
        cand_rate rba parent rate nkm k ≤ st.best_rate) ∧
      (st = find_best_init ∨
        (1 ≤ st.best_k ∧ st.best_k ≤ nkm.max_k ∧
          st = cand_state rba parent rate nkm st.best_k ∧ 0 < st.best_rate ∧
          ∀ k, 1 ≤ k → k < st.best_k → cand_rate rba parent rate nkm k ≤ rate →
            cand_rate rba parent rate nkm k < st.best_rate)) := by
  have h0 : find_best_init.best_rate ≤ rate := Nat.zero_le _
  obtain ⟨st, e, h1, _, h3, h4⟩ :=
    find_best_loop_spec parent hc hm hr (List.range' 1 nkm.max_k) find_best_init h0
      (List.pairwise_lt_range' 1 nkm.max_k)
  refine ⟨st, e, h1, ?_, ?_⟩
  · intro k hk1 hk2 hle
    exact h3 k (List.mem_range'_1.mpr ⟨hk1, by omega⟩) hle
  · rcases h4 with h | ⟨m1, m2, m3, m4⟩
    · exact Or.inl h
    · have hk := List.mem_range'_1.mp m1
      refine Or.inr ⟨hk.1, by omega, m2, m3, ?_⟩
      intro k hk1 hk2 hle
      exact m4 k (List.mem_range'_1.mpr ⟨hk1, by omega⟩) hk2 hle

/-! ## The model of the approximation primitive -/

theorem foldl_select_mem {α : Type} (p : α → α → Bool) :
    ∀ (l : List α) (init : α),
      l.foldl (fun best cand => if p cand best then cand else best) init = init ∨
      l.foldl (fun best cand => if p cand best then cand else best) init ∈ l := by
  intro l
  induction l with
  | nil => intro init; exact Or.inl rfl
  | cons x xs ih =>
    intro init
    rw [List.foldl_cons]
    rcases ih (if p x init then x else init) with h | h
    · rw [h]
      by_cases hp : p x init = true
      · rw [if_pos hp]; exact Or.inr (List.mem_cons_self _ _)
      · rw [if_neg hp]; exact Or.inl rfl
    · exact Or.inr (List.mem_cons_of_mem _ h)

theorem mem_rba_candidates {max_n max_m : Nat} {c : Nat × Nat}
    (h : c ∈ rba_candidates max_n max_m) : c.1 ≤ max_n ∧ 1 ≤ c.2 ∧ c.2 ≤ max_m := by
  unfold rba_candidates at h
  rw [List.mem_flatMap] at h
  obtain ⟨m, hm, hc⟩ := h
  rw [List.mem_map] at hc
  obtain ⟨n, hn, rfl⟩ := hc
  have := List.mem_range'_1.mp hm
  have := List.mem_range.mp hn
  simp only
  omega

/-- The model of the primitive keeps the contract `rba_contract`. -/
theorem rational_best_approximation_contract : rba_contract rational_best_approximation := by
  intro a b max_n max_m hm
  unfold rational_best_approximation
  rcases foldl_select_mem (rba_closer a b) (rba_candidates max_n max_m) (0, 1) with h | h
  · rw [h]; simp only; omega
  · exact mem_rba_candidates h

/-! ## Bits of the register word -/

theorem GENMASK_eq_shiftLeft (h l : Nat) (hl : l ≤ h + 1) :
    GENMASK h l = (2 ^ (h + 1 - l) - 1) <<< l := by
  unfold GENMASK
  rw [Nat.shiftLeft_eq, Nat.sub_mul, one_mul, ← pow_add]
  congr 2
  omega

theorem testBit_GENMASK (h l i : Nat) (hl : l ≤ h + 1) :
    (GENMASK h l).testBit i = decide (l ≤ i ∧ i ≤ h) := by
  rw [GENMASK_eq_shiftLeft h l hl, Nat.testBit_shiftLeft, Nat.testBit_two_pow_sub_one]
  by_cases h1 : l ≤ i
  · by_cases h2 : i ≤ h
    · have : i - l < h + 1 - l := by omega
      simp [h1, h2, this]
    · have : ¬ (i - l < h + 1 - l) := by omega
      simp [h1, h2, this]
  · simp [h1]

theorem GENMASK_lt (h l : Nat) (hh : h < 64) : GENMASK h l < ULONG_MOD := by
  unfold GENMASK ULONG_MOD
  have h1 : 2 ^ (h + 1) ≤ 2 ^ 64 := Nat.pow_le_pow_right (by norm_num) (by omega)
  have h2 : 0 < 2 ^ l := Nat.two_pow_pos _
  have h3 : 0 < 2 ^ (h + 1) := Nat.two_pow_pos _
  omega

theorem testBit_ul_not (x i : Nat) (hx : x < ULONG_MOD) :
    (ul_not x).testBit i = (decide (i < 64) && !x.testBit i) := by
  have e : ul_not x = 2 ^ 64 - (x + 1) := by unfold ul_not ULONG_MOD; omega
  rw [e]
  exact Nat.testBit_two_pow_sub_succ hx i

theorem testBit_field_clear (reg : Nat) (f : FactorField) (hf : f.valid) (i : Nat) :
    (field_clear reg f).testBit i =
      (decide (i < 32) && reg.testBit i && !decide (f.owns i)) := by
  obtain ⟨hw, hs⟩ := hf
  unfold field_clear U32_MOD FactorField.owns
  rw [Nat.testBit_mod_two_pow, Nat.testBit_and,
    testBit_ul_not _ _ (GENMASK_lt _ _ (by omega)), testBit_GENMASK _ _ _ (by omega)]
  by_cases h1 : i < 32
  · have h2 : i < 64 := by omega
    by_cases h3 : f.shift ≤ i ∧ i < f.shift + f.width
    · have h4 : f.shift ≤ i ∧ i ≤ f.width + f.shift - 1 := by omega
      simp [h1, h2, h3, h4]
    · have h4 : ¬ (f.shift ≤ i ∧ i ≤ f.width + f.shift - 1) := by omega
      simp [h1, h2, h3, h4]
  · simp [h1]

theorem testBit_field_set (reg : Nat) (f : FactorField) (v : Nat) (hv : 1 ≤ v)
    (hv2 : v < ULONG_MOD) (i : Nat) :
    (field_set reg f v).testBit i =
      (decide (i < 32) && (reg.testBit i || (decide (f.shift ≤ i) && (v - 1).testBit (i - f.shift)))) := by
  unfold field_set U32_MOD ul_shl
  rw [ul_sub_of_le hv hv2]
  unfold ULONG_MOD
  rw [Nat.testBit_mod_two_pow, Nat.testBit_or, Nat.testBit_mod_two_pow, Nat.testBit_shiftLeft]
  by_cases h1 : i < 32
  · have h2 : i < 64 := by omega
    simp [h1, h2]
  · simp [h1]

/-- The mask `(1 << w) - 1` of the source, as an `unsigned long`: `2 ^ w - 1` for every
width up to 31. -/
theorem int_mask_eq (w : Nat) :
    int_to_ulong (int_sub_one (int_shl_one w)) = 2 ^ (w % 32) - 1 := by
  unfold int_to_ulong int_sub_one int_shl_one U32_MOD ULONG_MOD
  rw [Nat.one_shiftLeft]
  have hk : w % 32 < 32 := Nat.mod_lt _ (by norm_num)
  have h1 : 1 ≤ 2 ^ (w % 32) := Nat.one_le_two_pow
  have h2 : 2 ^ (w % 32) ≤ 2 ^ 31 := Nat.pow_le_pow_right (by norm_num) (by omega)
  generalize 2 ^ (w % 32) = x at h1 h2 ⊢
  have e1 : x % 2 ^ 32 = x := Nat.mod_eq_of_lt (by omega)
  rw [e1]
  have e2 : (x + 2 ^ 32 - 1) % 2 ^ 32 = x - 1 := by omega
  rw [e2, if_pos (by omega)]

/-- The bound `1 << w` of the source, as an `unsigned long`: `2 ^ w` for every width up
to 30. -/
theorem int_to_ulong_shl_one (w : Nat) (hw : w ≤ 30) :
    int_to_ulong (int_shl_one w) = 2 ^ w := by
  unfold int_to_ulong int_shl_one U32_MOD
  rw [Nat.one_shiftLeft, Nat.mod_eq_of_lt (by omega : w < 32)]
  have h2 : 2 ^ w ≤ 2 ^ 30 := Nat.pow_le_pow_right (by norm_num) hw
  have e1 : 2 ^ w % 2 ^ 32 = 2 ^ w := Nat.mod_eq_of_lt (by omega)
  rw [e1, if_pos (by omega)]

/-- The bound `1 << w` of the source is never zero. -/
theorem int_to_ulong_shl_one_pos (w : Nat) : 1 ≤ int_to_ulong (int_shl_one w) := by
  unfold int_to_ulong int_shl_one U32_MOD ULONG_MOD
  rw [Nat.one_shiftLeft]
  have hk : w % 32 < 32 := Nat.mod_lt _ (by norm_num)
  have h1 : 1 ≤ 2 ^ (w % 32) := Nat.one_le_two_pow
  have h2 : 2 ^ (w % 32) ≤ 2 ^ 31 := Nat.pow_le_pow_right (by norm_num) (by omega)
  generalize 2 ^ (w % 32) = x at h1 h2 ⊢
  have e1 : x % 2 ^ 32 = x := Nat.mod_eq_of_lt (by omega)
  rw [e1]
  split_ifs <;> omega

/-- The `int` expressions of the source at the ends of their range: at width 31 the bound
`1 << 31` is `INT_MIN`, `0xFFFFFFFF80000000` as an `unsigned long`, and the mask
`(1 << 31) - 1` is `0x7FFFFFFF`; at width 32 the mask is 0. -/
theorem int_shl_one_values :
    int_to_ulong (int_shl_one 30) = 1073741824 ∧
    int_to_ulong (int_shl_one 31) = 18446744071562067968 ∧
    int_to_ulong (int_sub_one (int_shl_one 31)) = 2147483647 ∧
    int_to_ulong (int_sub_one (int_shl_one 32)) = 0 := by
  decide

/-- The decoding of the source in arithmetic terms, for any field: the counts of both
32-bit shifts are taken modulo 32. -/
theorem field_get_eq_div_mod_any (reg : Nat) (f : FactorField) :
    field_get reg f = reg / 2 ^ (f.shift % 32) % 2 ^ (f.width % 32) := by
  unfold field_get u32_shr
  rw [int_mask_eq, Nat.and_pow_two_sub_one_eq_mod, Nat.shiftRight_eq_div_pow]

theorem field_get_eq_div_mod (reg : Nat) (f : FactorField) (hs : f.shift ≤ 31)
    (hw : f.width ≤ 31) :
    field_get reg f = reg / 2 ^ f.shift % 2 ^ f.width := by
  rw [field_get_eq_div_mod_any, Nat.mod_eq_of_lt (by omega : f.shift < 32),
    Nat.mod_eq_of_lt (by omega : f.width < 32)]

theorem testBit_field_get (reg : Nat) (f : FactorField) (hs : f.shift ≤ 31)
    (hw : f.width ≤ 31) (j : Nat) :
    (field_get reg f).testBit j = (reg.testBit (f.shift + j) && decide (j < f.width)) := by
  unfold field_get u32_shr
  rw [int_mask_eq, Nat.mod_eq_of_lt (by omega : f.shift < 32),
    Nat.mod_eq_of_lt (by omega : f.width < 32), Nat.testBit_and, Nat.testBit_shiftRight,
    Nat.testBit_two_pow_sub_one]

/-- In a valid configuration every field has a width of at most 30 and starts inside the
register. -/
theorem ccu_nkm.valid_bounds {c : ccu_nkm} (h : c.valid) :
    (c.n.shift ≤ 31 ∧ c.n.width ≤ 30) ∧ (c.k.shift ≤ 31 ∧ c.k.width ≤ 30) ∧
      (c.m.shift ≤ 31 ∧ c.m.width ≤ 30) := by
  obtain ⟨vn, vk, vm, dnk, dnm, dkm⟩ := h
  unfold FactorField.valid at vn vk vm
  unfold FactorField.disjoint at dnk dnm dkm
  omega

theorem testBit_eq_false_of_lt_of_le {x w j : Nat} (hx : x < 2 ^ w) (hj : w ≤ j) :
    x.testBit j = false :=
  Nat.testBit_lt_two_pow (lt_of_lt_of_le hx (Nat.pow_le_pow_right (by norm_num) hj))


/-! ## Properties of the search -/

theorem ul_mul_mul (a b c : Nat) : ul_mul (ul_mul a b) c = (a * b * c) % ULONG_MOD := by
  unfold ul_mul
  rw [Nat.mod_mul_mod]

theorem nkm_rate_of_lt {parent n k m : Nat} (h : parent * n * k < ULONG_MOD) :
    nkm_rate parent n k m = parent * n * k / m := by
  unfold nkm_rate
  rw [ul_mul_mul, Nat.mod_eq_of_lt h]

theorem nkm_rate_zero_n (parent k m : Nat) : nkm_rate parent 0 k m = 0 := by
  unfold nkm_rate ul_mul
  simp

theorem cand_rate_eq_nkm_rate (rba : Nat → Nat → Nat → Nat → Nat × Nat) (parent rate : Nat)
    (nkm : _ccu_nkm) (_k : Nat) :
    cand_rate rba parent rate nkm _k =
      nkm_rate parent (rba (rate / _k) parent nkm.max_n nkm.max_m).1 _k
        (rba (rate / _k) parent nkm.max_n nkm.max_m).2 := rfl

/-- The result of `ccu_nkm_find_best` in terms of the final state of its loop. -/
theorem ccu_nkm_find_best_of_run {rba : Nat → Nat → Nat → Nat → Nat × Nat} {parent rate : Nat}
    {nkm : _ccu_nkm} {st : find_best_state} (h : find_best_run rba parent rate nkm = some st) :
    ccu_nkm_find_best rba parent rate nkm =
      some { nkm with n := st.best_n, k := st.best_k, m := st.best_m } := by
  simp only [ccu_nkm_find_best, h]

/-- The result of the search, for a primitive that keeps its contract: the search has a
result, which leaves the bounds as they are and is either the all-zero selection or the
candidate of some `k` in `1..max_k`, with a rate that is positive and at most `rate`. -/
theorem ccu_nkm_find_best_selection (rba : Nat → Nat → Nat → Nat → Nat × Nat)
    (parent rate : Nat) (nkm : _ccu_nkm) (hc : rba_contract rba) (hm : 1 ≤ nkm.max_m)
    (hr : rate < ULONG_MOD) :
    ∃ sel, ccu_nkm_find_best rba parent rate nkm = some sel ∧
      sel.max_n = nkm.max_n ∧ sel.max_k = nkm.max_k ∧ sel.max_m = nkm.max_m ∧
      ((sel.n = 0 ∧ sel.k = 0 ∧ sel.m = 0) ∨
        (1 ≤ sel.n ∧ sel.n ≤ nkm.max_n ∧ 1 ≤ sel.k ∧ sel.k ≤ nkm.max_k ∧
          1 ≤ sel.m ∧ sel.m ≤ nkm.max_m ∧
          0 < nkm_rate parent sel.n sel.k sel.m ∧
          nkm_rate parent sel.n sel.k sel.m ≤ rate)) := by
  obtain ⟨st, e, h1, _, h3⟩ := find_best_run_spec parent hc hm hr
  refine ⟨_, ccu_nkm_find_best_of_run e, rfl, rfl, rfl, ?_⟩
  rcases h3 with h | ⟨k1, k2, hst, hpos, _⟩
  · left; rw [h]; exact ⟨rfl, rfl, rfl⟩
  · right
    have hb := hc (rate / st.best_k) parent nkm.max_n nkm.max_m hm
    have en : st.best_n = (rba (rate / st.best_k) parent nkm.max_n nkm.max_m).1 :=
      congrArg find_best_state.best_n hst
    have em : st.best_m = (rba (rate / st.best_k) parent nkm.max_n nkm.max_m).2 :=
      congrArg find_best_state.best_m hst
    have er : st.best_rate = nkm_rate parent st.best_n st.best_k st.best_m := by
      rw [en, em]; exact congrArg find_best_state.best_rate hst
    have hn : 1 ≤ st.best_n := by
      rcases Nat.eq_zero_or_pos st.best_n with h0 | h0
      · rw [er, h0, nkm_rate_zero_n] at hpos; exact absurd hpos (lt_irrefl _)
      · exact h0
    exact ⟨hn, by rw [en]; exact hb.1, k1, k2, by rw [em]; exact hb.2.1,
      by rw [em]; exact hb.2.2, by rw [← er]; exact hpos, by rw [← er]; exact h1⟩

/-- C1 (amended): for every `parent` and every target `rate` (in particular for
`rate ≥ parent > 0`) and all bounds with `max_m ≥ 1` (in particular powers of two ≥ 2), with
a primitive that returns `n ≤ max_n` and `1 ≤ m ≤ max_m`, `ccu_nkm_find_best` returns the
all-zero selection `n = k = m = 0` exactly when no `K` in `1..max_k` has a candidate rate
that is above 0 and at most `rate`, and otherwise `n` in `[1, max_n]`, `k` in `[1, max_k]`,
`m` in `[1, max_m]` with `parent * n * k / m ≤ rate`, the product being the `unsigned long`
product of the code; it is the exact product when `parent * max_n * max_k` fits in an
`unsigned long`. -/
theorem ccu_nkm_find_best_zero_or_in_bounds (rba : Nat → Nat → Nat → Nat → Nat × Nat)
    (parent rate : Nat) (nkm : _ccu_nkm) (hc : rba_contract rba) (hm : 1 ≤ nkm.max_m)
    (hr : rate < ULONG_MOD) :
    ∃ sel, ccu_nkm_find_best rba parent rate nkm = some sel ∧
      ((sel.n = 0 ∧ sel.k = 0 ∧ sel.m = 0) ↔
        ∀ K, 1 ≤ K → K ≤ nkm.max_k →
          ¬ (0 < cand_rate rba parent rate nkm K ∧ cand_rate rba parent rate nkm K ≤ rate)) ∧
      ((sel.n = 0 ∧ sel.k = 0 ∧ sel.m = 0) ∨
        (1 ≤ sel.n ∧ sel.n ≤ nkm.max_n ∧ 1 ≤ sel.k ∧ sel.k ≤ nkm.max_k ∧
          1 ≤ sel.m ∧ sel.m ≤ nkm.max_m ∧
          nkm_rate parent sel.n sel.k sel.m ≤ rate ∧
          (parent * nkm.max_n * nkm.max_k < ULONG_MOD →
            parent * sel.n * sel.k / sel.m ≤ rate))) := by
  obtain ⟨st, e, h1, h2, h3⟩ := find_best_run_spec parent hc hm hr
  refine ⟨_, ccu_nkm_find_best_of_run e, ?_, ?_⟩
  · rcases h3 with h | ⟨k1, k2, hst, hpos, _⟩
    · constructor
      · intro _ K hK1 hK2 hK
        have hdom := h2 K hK1 hK2 hK.2
        rw [h] at hdom
        have h0 : cand_rate rba parent rate nkm K ≤ 0 := hdom
        omega
      · intro _
        rw [h]
        exact ⟨rfl, rfl, rfl⟩
    · have hb := hc (rate / st.best_k) parent nkm.max_n nkm.max_m hm
      have em : st.best_m = (rba (rate / st.best_k) parent nkm.max_n nkm.max_m).2 :=
        congrArg find_best_state.best_m hst
      have er : st.best_rate = cand_rate rba parent rate nkm st.best_k :=
        congrArg find_best_state.best_rate hst
      constructor
      · rintro ⟨_, _, hz⟩
        have hz' : st.best_m = 0 := hz
        omega
      · intro hno
        exact absurd ⟨by rw [← er]; exact hpos, by rw [← er]; exact h1⟩
          (hno st.best_k k1 k2)
  · rcases h3 with h | ⟨k1, k2, hst, hpos, _⟩
    · left; rw [h]; exact ⟨rfl, rfl, rfl⟩
    · right
      have hb := hc (rate / st.best_k) parent nkm.max_n nkm.max_m hm
      have en : st.best_n = (rba (rate / st.best_k) parent nkm.max_n nkm.max_m).1 :=
        congrArg find_best_state.best_n hst
      have em : st.best_m = (rba (rate / st.best_k) parent nkm.max_n nkm.max_m).2 :=
        congrArg find_best_state.best_m hst
      have er : st.best_rate = nkm_rate parent st.best_n st.best_k st.best_m := by
        rw [en, em]; exact congrArg find_best_state.best_rate hst
      have hn : 1 ≤ st.best_n := by
        rcases Nat.eq_zero_or_pos st.best_n with h0 | h0
        · rw [er, h0, nkm_rate_zero_n] at hpos; exact absurd hpos (lt_irrefl _)
        · exact h0
      have hn2 : st.best_n ≤ nkm.max_n := by rw [en]; exact hb.1
      have hle : nkm_rate parent st.best_n st.best_k st.best_m ≤ rate := by
        rw [← er]; exact h1
      refine ⟨hn, hn2, k1, k2, by rw [em]; exact hb.2.1, by rw [em]; exact hb.2.2, hle, ?_⟩
      intro hov
      have hle2 : parent * st.best_n * st.best_k ≤ parent * nkm.max_n * nkm.max_k :=
        Nat.mul_le_mul (Nat.mul_le_mul_left _ hn2) k2
      have e2 := @nkm_rate_of_lt parent st.best_n st.best_k st.best_m
        (lt_of_le_of_lt hle2 hov)
      rw [e2] at hle
      exact hle

/-- C2 (amended): the search is optimal among the candidates it examines, one per `K`: if
`sel` is the result of `ccu_nkm_find_best`, there is no `k'` in `1..max_k` whose candidate
`(n', k', m')`, with `(n', m')` the pair the primitive returns for `rate / k'`, has a rate
`parent * n' * k' / m' ≤ rate` strictly larger than the rate of `sel` (0 for the all-zero
selection). -/
theorem ccu_nkm_find_best_no_better_candidate (rba : Nat → Nat → Nat → Nat → Nat × Nat)
    (parent rate : Nat) (nkm : _ccu_nkm) (hc : rba_contract rba) (hm : 1 ≤ nkm.max_m)
    (hr : rate < ULONG_MOD) :
    ∃ sel, ccu_nkm_find_best rba parent rate nkm = some sel ∧
      ¬ ∃ k', 1 ≤ k' ∧ k' ≤ nkm.max_k ∧
        nkm_rate parent (rba (rate / k') parent nkm.max_n nkm.max_m).1 k'
          (rba (rate / k') parent nkm.max_n nkm.max_m).2 ≤ rate ∧
        selection_rate parent sel <
          nkm_rate parent (rba (rate / k') parent nkm.max_n nkm.max_m).1 k'
            (rba (rate / k') parent nkm.max_n nkm.max_m).2 := by
  obtain ⟨st, e, _, h2, h3⟩ := find_best_run_spec parent hc hm hr
  refine ⟨_, ccu_nkm_find_best_of_run e, ?_⟩
  rintro ⟨k', hk1, hk2, hle, hlt⟩
  have hdom := h2 k' hk1 hk2 hle
  rw [cand_rate_eq_nkm_rate] at hdom
  have hsel : st.best_rate ≤
      selection_rate parent { nkm with n := st.best_n, k := st.best_k, m := st.best_m } := by
    rcases h3 with h | ⟨_, _, hst, _, _⟩
    · rw [h]; exact Nat.zero_le _
    · have hb := hc (rate / st.best_k) parent nkm.max_n nkm.max_m hm
      have en : st.best_n = (rba (rate / st.best_k) parent nkm.max_n nkm.max_m).1 :=
        congrArg find_best_state.best_n hst
      have em : st.best_m = (rba (rate / st.best_k) parent nkm.max_n nkm.max_m).2 :=
        congrArg find_best_state.best_m hst
      have er : st.best_rate = nkm_rate parent st.best_n st.best_k st.best_m := by
        rw [en, em]; exact congrArg find_best_state.best_rate hst
      have hm0 : st.best_m ≠ 0 := by rw [em]; omega
      unfold selection_rate
      simp only [hm0, if_false]
      exact le_of_eq er
  omega

/-- C7 (amended): if the candidate of some `k1` in `1..max_k` survives (`≤ rate`), has the
overall smallest error `rate - candidate` among the surviving candidates, and is not zero,
then the returned `k` is the smallest `K` whose candidate attains that best rate: it is at
most `k1`, its candidate equals the one of `k1`, no smaller `K` has that candidate, and the
returned `n`, `m` are the pair the primitive gave for the returned `k`. In particular, of
two values `k1 < k2` with the same best candidate, `k2` is never returned. -/
theorem ccu_nkm_find_best_tie_smallest_k (rba : Nat → Nat → Nat → Nat → Nat × Nat)
    (parent rate : Nat) (nkm : _ccu_nkm) (hc : rba_contract rba) (hm : 1 ≤ nkm.max_m)
    (hr : rate < ULONG_MOD) (k1 : Nat) (hk1 : 1 ≤ k1) (hk2 : k1 ≤ nkm.max_k)
    (hsurv : cand_rate rba parent rate nkm k1 ≤ rate)
    (hpos : 0 < cand_rate rba parent rate nkm k1)
    (hbest : ∀ k, 1 ≤ k → k ≤ nkm.max_k → cand_rate rba parent rate nkm k ≤ rate →
      rate - cand_rate rba parent rate nkm k1 ≤ rate - cand_rate rba parent rate nkm k) :
    ∃ sel, ccu_nkm_find_best rba parent rate nkm = some sel ∧
      1 ≤ sel.k ∧ sel.k ≤ k1 ∧
      cand_rate rba parent rate nkm sel.k = cand_rate rba parent rate nkm k1 ∧
      (∀ k, 1 ≤ k → k < sel.k →
        cand_rate rba parent rate nkm k ≠ cand_rate rba parent rate nkm k1) ∧
      sel.n = (rba (rate / sel.k) parent nkm.max_n nkm.max_m).1 ∧
      sel.m = (rba (rate / sel.k) parent nkm.max_n nkm.max_m).2 := by
  obtain ⟨st, e, h1, h2, h3⟩ := find_best_run_spec parent hc hm hr
  refine ⟨_, ccu_nkm_find_best_of_run e, ?_⟩
  have hdom := h2 k1 hk1 hk2 hsurv
  rcases h3 with h | ⟨b1, b2, hst, _, htie⟩
  · rw [h] at hdom
    have : cand_rate rba parent rate nkm k1 ≤ 0 := hdom
    omega
  · have er : st.best_rate = cand_rate rba parent rate nkm st.best_k :=
      congrArg find_best_state.best_rate hst
    have hle := hbest st.best_k b1 b2 (by rw [← er]; exact h1)
    have heq : cand_rate rba parent rate nkm st.best_k = cand_rate rba parent rate nkm k1 := by
      rw [← er] at hle ⊢; omega
    refine ⟨b1, ?_, heq, ?_, congrArg find_best_state.best_n hst,
      congrArg find_best_state.best_m hst⟩
    · by_contra hgt
      have := htie k1 hk1 (by simpa using hgt) hsurv
      omega
    · intro k hk hlt hcontra
      have := htie k hk hlt (by rw [hcontra]; exact hsurv)
      omega

/-- C8: degenerate case. With `max_n = max_k = 1`, `max_m ≥ 1` and
`rate < parent / max_m`, `ccu_nkm_find_best` has a result (no division by zero: the
primitive returns a denominator ≥ 1) and the result is the all-zero selection
`n = k = m = 0`. -/
theorem ccu_nkm_find_best_degenerate (rba : Nat → Nat → Nat → Nat → Nat × Nat)
    (parent rate : Nat) (nkm : _ccu_nkm) (hc : rba_contract rba)
    (hp : parent < ULONG_MOD) (hm : 1 ≤ nkm.max_m) (hn1 : nkm.max_n = 1)
    (hk1 : nkm.max_k = 1) (hlow : rate < parent / nkm.max_m) :
    ccu_nkm_find_best rba parent rate nkm = some { nkm with n := 0, k := 0, m := 0 } := by
  have hr : rate < ULONG_MOD :=
    lt_of_lt_of_le hlow (le_trans (Nat.div_le_self _ _) (le_of_lt hp))
  obtain ⟨st, e, h1, _, h3⟩ := find_best_run_spec parent hc hm hr
  rw [ccu_nkm_find_best_of_run e]
  rcases h3 with h | ⟨b1, b2, hst, hpos, _⟩
  · rw [h]; rfl
  · exfalso
    have hk : st.best_k = 1 := by omega
    have hb := hc (rate / st.best_k) parent nkm.max_n nkm.max_m hm
    have er : st.best_rate = cand_rate rba parent rate nkm st.best_k :=
      congrArg find_best_state.best_rate hst
    rw [cand_rate_eq_nkm_rate] at er
    rcases Nat.eq_zero_or_pos (rba (rate / st.best_k) parent nkm.max_n nkm.max_m).1 with h0 | h0
    · rw [h0, nkm_rate_zero_n] at er; omega
    · have hn : (rba (rate / st.best_k) parent nkm.max_n nkm.max_m).1 = 1 := by omega
      have hlt : parent * 1 * 1 < ULONG_MOD := by omega
      rw [hn, hk, nkm_rate_of_lt hlt] at er
      have hdiv : parent / nkm.max_m ≤
          parent / (rba (rate / 1) parent nkm.max_n nkm.max_m).2 := by
        rw [hk] at hb
        exact Nat.div_le_div_left hb.2.2 hb.2.1
      simp only [mul_one] at er
      omega


/-! ## Properties of the register codec and of `ccu_nkm_recalc_rate` -/

/-- C4 (amended): codec round trip. For every 32-bit `word`, every field with
`1 ≤ width ≤ 31` and `shift + width ≤ 32`, and every effective value `1 ≤ v ≤ 2 ^ width`:
clearing the field with `~GENMASK(shift + width - 1, shift)`, OR-ing in `(v - 1) << shift`
and decoding with `(word >> shift) & ((1 << width) - 1)` yields `v - 1`, and every bit
outside `[shift, shift + width)` is unchanged. -/
theorem field_codec_round_trip (word : Nat) (f : FactorField) (v : Nat)
    (hword : word < U32_MOD) (hw : 1 ≤ f.width) (hw31 : f.width ≤ 31)
    (hs : f.shift + f.width ≤ 32) (hv1 : 1 ≤ v) (hv2 : v ≤ 2 ^ f.width) :
    field_get (field_set (field_clear word f) f v) f = v - 1 ∧
    ∀ i, (i < f.shift ∨ f.shift + f.width ≤ i) →
      (field_set (field_clear word f) f v).testBit i = word.testBit i := by
  have hf : f.valid := ⟨hw, hs⟩
  have hw32 : 2 ^ f.width ≤ 2 ^ 32 := Nat.pow_le_pow_right (by norm_num) (by omega)
  have hvU : v < ULONG_MOD := by unfold ULONG_MOD; omega
  have hvw : v - 1 < 2 ^ f.width := by omega
  constructor
  · apply Nat.eq_of_testBit_eq
    intro j
    rw [testBit_field_get _ _ (by omega) hw31, testBit_field_set _ _ _ hv1 hvU,
      testBit_field_clear _ _ hf]
    by_cases hj : j < f.width
    · have h1 : f.shift + j < 32 := by omega
      have h2 : f.owns (f.shift + j) := ⟨by omega, by omega⟩
      simp [hj, h1, h2]
    · have hb : (v - 1).testBit j = false := testBit_eq_false_of_lt_of_le hvw (by omega)
      simp [hj, hb]
  · intro i hi
    have hown : ¬ f.owns i := by unfold FactorField.owns; omega
    rw [testBit_field_set _ _ _ hv1 hvU, testBit_field_clear _ _ hf]
    by_cases h32 : i < 32
    · by_cases hsh : f.shift ≤ i
      · have hge : f.width ≤ i - f.shift := by omega
        have hb : (v - 1).testBit (i - f.shift) = false :=
          testBit_eq_false_of_lt_of_le hvw hge
        simp [h32, hown, hb]
      · simp [h32, hown, hsh]
    · have hword2 : word < 2 ^ 32 := hword
      have : word.testBit i = false := testBit_eq_false_of_lt_of_le hword2 (by omega)
      simp [h32, this]

/-- C10 (amended): `ccu_nkm_recalc_rate` never fails. For every 32-bit register word,
every `parent_rate` and any three fields, the divisor `m + 1` is at least 1 and the call
returns `parent_rate * (n + 1) * (k + 1) / (m + 1)` for the three values `n`, `k`, `m` it
decodes. For fields of width at most 31 that start inside the register (`shift ≤ 31`), in
particular for three non-overlapping fields of width ≥ 1, each decoded value is
`(word >> shift) & (2 ^ width - 1)`, that is `word / 2 ^ shift % 2 ^ width`, so that the
call returns `parent_rate * (n_raw + 1) * (k_raw + 1) / (m_raw + 1)` (truncating division,
the product being the `unsigned long` product of the code, which is the exact product
whenever that fits in an `unsigned long`). -/
theorem ccu_nkm_recalc_rate_total (nkm : ccu_nkm) (parent_rate reg : Nat)
    (hreg : reg < U32_MOD) :
    (1 ≤ ul_add (field_get reg nkm.m) 1 ∧
      ccu_nkm_recalc_rate nkm parent_rate reg =
        some (nkm_rate parent_rate (field_get reg nkm.n + 1) (field_get reg nkm.k + 1)
          (field_get reg nkm.m + 1))) ∧
    (nkm.n.shift ≤ 31 ∧ nkm.n.width ≤ 31 → nkm.k.shift ≤ 31 ∧ nkm.k.width ≤ 31 →
      nkm.m.shift ≤ 31 ∧ nkm.m.width ≤ 31 →
      1 ≤ reg / 2 ^ nkm.m.shift % 2 ^ nkm.m.width + 1 ∧
      ccu_nkm_recalc_rate nkm parent_rate reg =
        some (nkm_rate parent_rate (reg / 2 ^ nkm.n.shift % 2 ^ nkm.n.width + 1)
          (reg / 2 ^ nkm.k.shift % 2 ^ nkm.k.width + 1)
          (reg / 2 ^ nkm.m.shift % 2 ^ nkm.m.width + 1)) ∧
      (parent_rate * (reg / 2 ^ nkm.n.shift % 2 ^ nkm.n.width + 1) *
          (reg / 2 ^ nkm.k.shift % 2 ^ nkm.k.width + 1) < ULONG_MOD →
        ccu_nkm_recalc_rate nkm parent_rate reg =
          some (parent_rate * (reg / 2 ^ nkm.n.shift % 2 ^ nkm.n.width + 1) *
            (reg / 2 ^ nkm.k.shift % 2 ^ nkm.k.width + 1) /
            (reg / 2 ^ nkm.m.shift % 2 ^ nkm.m.width + 1)))) := by
  have raw_lt : ∀ f : FactorField, field_get reg f + 1 < ULONG_MOD := by
    intro f
    rw [field_get_eq_div_mod_any]
    have h1 : reg / 2 ^ (f.shift % 32) % 2 ^ (f.width % 32) ≤ reg / 2 ^ (f.shift % 32) :=
      Nat.mod_le _ _
    have h2 : reg / 2 ^ (f.shift % 32) ≤ reg := Nat.div_le_self _ _
    unfold ULONG_MOD; unfold U32_MOD at hreg; omega
  have add1 : ∀ f : FactorField, ul_add (field_get reg f) 1 = field_get reg f + 1 := by
    intro f
    unfold ul_add
    rw [Nat.mod_eq_of_lt (raw_lt f)]
  have main : ccu_nkm_recalc_rate nkm parent_rate reg =
      some (nkm_rate parent_rate (field_get reg nkm.n + 1) (field_get reg nkm.k + 1)
        (field_get reg nkm.m + 1)) := by
    unfold ccu_nkm_recalc_rate
    simp only [add1]
    rw [if_neg (Nat.succ_ne_zero _)]
    rfl
  refine ⟨⟨by rw [add1]; exact Nat.le_add_left _ _, main⟩, ?_⟩
  intro hn hk hm
  rw [main, field_get_eq_div_mod reg nkm.n hn.1 hn.2, field_get_eq_div_mod reg nkm.k hk.1 hk.2,
    field_get_eq_div_mod reg nkm.m hm.1 hm.2]
  refine ⟨Nat.le_add_left _ _, rfl, ?_⟩
  intro h
  rw [nkm_rate_of_lt h]


/-! ## The register operations where a candidate is selected -/

theorem testBit_field_set_any (reg : Nat) (f : FactorField) (v i : Nat) :
    (field_set reg f v).testBit i =
      (decide (i < 32) && (reg.testBit i || (ul_shl (ul_sub v 1) f.shift).testBit i)) := by
  unfold field_set U32_MOD
  rw [Nat.testBit_mod_two_pow, Nat.testBit_or]

/-- Bits of the word after `reg |= (v - 1) << f.shift` for an effective value that fits
the field. -/
theorem testBit_field_set_valid (reg : Nat) (f : FactorField) (hf : f.valid) (v : Nat)
    (hv1 : 1 ≤ v) (hv2 : v ≤ 2 ^ f.width) (i : Nat) :
    (field_set reg f v).testBit i =
      (decide (i < 32) &&
        (reg.testBit i || (decide (f.owns i) && (v - 1).testBit (i - f.shift)))) := by
  have hw32 : 2 ^ f.width ≤ 2 ^ 32 := Nat.pow_le_pow_right (by norm_num) (by have := hf.2; omega)
  have hvU : v < ULONG_MOD := by unfold ULONG_MOD; omega
  have hvw : v - 1 < 2 ^ f.width := by omega
  rw [testBit_field_set _ _ _ hv1 hvU]
  by_cases ho : f.owns i
  · have : f.shift ≤ i := ho.1
    simp [ho, this]
  · by_cases hsh : f.shift ≤ i
    · have hge : f.width ≤ i - f.shift := by unfold FactorField.owns at ho; omega
      have hb : (v - 1).testBit (i - f.shift) = false := testBit_eq_false_of_lt_of_le hvw hge
      simp [hb]
    · simp [ho, hsh]

/-- Bits of the word `ccu_nkm_set_rate` writes, for a selection whose three values fit
their fields. -/
theorem testBit_set_rate_word (nkm : ccu_nkm) (hv : nkm.valid) (sel : _ccu_nkm)
    (hn1 : 1 ≤ sel.n) (hn2 : sel.n ≤ 2 ^ nkm.n.width)
    (hk1 : 1 ≤ sel.k) (hk2 : sel.k ≤ 2 ^ nkm.k.width)
    (hm1 : 1 ≤ sel.m) (hm2 : sel.m ≤ 2 ^ nkm.m.width) (reg0 i : Nat) :
    (set_rate_word nkm sel reg0).testBit i =
      (decide (i < 32) &&
        ((reg0.testBit i && !decide (nkm.n.owns i) && !decide (nkm.k.owns i) &&
            !decide (nkm.m.owns i)) ||
          (decide (nkm.n.owns i) && (sel.n - 1).testBit (i - nkm.n.shift)) ||
          (decide (nkm.k.owns i) && (sel.k - 1).testBit (i - nkm.k.shift)) ||
          (decide (nkm.m.owns i) && (sel.m - 1).testBit (i - nkm.m.shift)))) := by
  obtain ⟨vn, vk, vm, _, _, _⟩ := hv
  unfold set_rate_word
  simp only
  rw [testBit_field_set_valid _ _ vm _ hm1 hm2, testBit_field_set_valid _ _ vk _ hk1 hk2,
    testBit_field_set_valid _ _ vn _ hn1 hn2, testBit_field_clear _ _ vm,
    testBit_field_clear _ _ vk, testBit_field_clear _ _ vn]
  by_cases h32 : i < 32
  · simp only [h32, decide_True, Bool.true_and, Bool.or_assoc]
  · simp [h32]


/-- Outside the three fields the word `ccu_nkm_set_rate` writes is the word it read, when
the three values of the selection fit their fields. -/
theorem set_rate_word_frame (nkm : ccu_nkm) (hv : nkm.valid) (sel : _ccu_nkm)
    (hn1 : 1 ≤ sel.n) (hn2 : sel.n ≤ 2 ^ nkm.n.width)
    (hk1 : 1 ≤ sel.k) (hk2 : sel.k ≤ 2 ^ nkm.k.width)
    (hm1 : 1 ≤ sel.m) (hm2 : sel.m ≤ 2 ^ nkm.m.width) (reg0 : Nat) (hreg : reg0 < U32_MOD)
    (i : Nat) (hn : ¬ nkm.n.owns i) (hk : ¬ nkm.k.owns i) (hm : ¬ nkm.m.owns i) :
    (set_rate_word nkm sel reg0).testBit i = reg0.testBit i := by
  rw [testBit_set_rate_word nkm hv sel hn1 hn2 hk1 hk2 hm1 hm2]
  by_cases h32 : i < 32
  · simp [h32, hn, hk, hm]
  · have hreg2 : reg0 < 2 ^ 32 := hreg
    have : reg0.testBit i = false := testBit_eq_false_of_lt_of_le hreg2 (by omega)
    simp [h32, this]

/-- Decoding the three fields of the word `ccu_nkm_set_rate` writes gives back the three
values of the selection, minus one, when they fit their fields. -/
theorem field_get_set_rate_word (nkm : ccu_nkm) (hv : nkm.valid) (sel : _ccu_nkm)
    (hn1 : 1 ≤ sel.n) (hn2 : sel.n ≤ 2 ^ nkm.n.width)
    (hk1 : 1 ≤ sel.k) (hk2 : sel.k ≤ 2 ^ nkm.k.width)
    (hm1 : 1 ≤ sel.m) (hm2 : sel.m ≤ 2 ^ nkm.m.width) (reg0 : Nat) :
    field_get (set_rate_word nkm sel reg0) nkm.n = sel.n - 1 ∧
    field_get (set_rate_word nkm sel reg0) nkm.k = sel.k - 1 ∧
    field_get (set_rate_word nkm sel reg0) nkm.m = sel.m - 1 := by
  have hv' := hv
  obtain ⟨⟨sn, wn⟩, ⟨sk, wk⟩, ⟨sm, wm⟩⟩ := ccu_nkm.valid_bounds hv
  obtain ⟨vn, vk, vm, dnk, dnm, dkm⟩ := hv'
  unfold FactorField.valid at vn vk vm
  unfold FactorField.disjoint at dnk dnm dkm
  refine ⟨?_, ?_, ?_⟩
  · apply Nat.eq_of_testBit_eq
    intro j
    rw [testBit_field_get _ _ sn (by omega),
      testBit_set_rate_word nkm hv sel hn1 hn2 hk1 hk2 hm1 hm2]
    by_cases hj : j < nkm.n.width
    · have h1 : nkm.n.shift + j < 32 := by omega
      have h2 : nkm.n.owns (nkm.n.shift + j) := ⟨by omega, by omega⟩
      have h3 : ¬ nkm.k.owns (nkm.n.shift + j) := by unfold FactorField.owns; omega
      have h4 : ¬ nkm.m.owns (nkm.n.shift + j) := by unfold FactorField.owns; omega
      simp [hj, h1, h2, h3, h4]
    · have hb : (sel.n - 1).testBit j = false :=
        testBit_eq_false_of_lt_of_le (by omega : sel.n - 1 < 2 ^ nkm.n.width) (by omega)
      simp [hj, hb]
  · apply Nat.eq_of_testBit_eq
    intro j
    rw [testBit_field_get _ _ sk (by omega),
      testBit_set_rate_word nkm hv sel hn1 hn2 hk1 hk2 hm1 hm2]
    by_cases hj : j < nkm.k.width
    · have h1 : nkm.k.shift + j < 32 := by omega
      have h2 : nkm.k.owns (nkm.k.shift + j) := ⟨by omega, by omega⟩
      have h3 : ¬ nkm.n.owns (nkm.k.shift + j) := by unfold FactorField.owns; omega
      have h4 : ¬ nkm.m.owns (nkm.k.shift + j) := by unfold FactorField.owns; omega
      simp [hj, h1, h2, h3, h4]
    · have hb : (sel.k - 1).testBit j = false :=
        testBit_eq_false_of_lt_of_le (by omega : sel.k - 1 < 2 ^ nkm.k.width) (by omega)
      simp [hj, hb]
  · apply Nat.eq_of_testBit_eq
    intro j
    rw [testBit_field_get _ _ sm (by omega),
      testBit_set_rate_word nkm hv sel hn1 hn2 hk1 hk2 hm1 hm2]
    by_cases hj : j < nkm.m.width
    · have h1 : nkm.m.shift + j < 32 := by omega
      have h2 : nkm.m.owns (nkm.m.shift + j) := ⟨by omega, by omega⟩
      have h3 : ¬ nkm.n.owns (nkm.m.shift + j) := by unfold FactorField.owns; omega
      have h4 : ¬ nkm.k.owns (nkm.m.shift + j) := by unfold FactorField.owns; omega
      simp [hj, h1, h2, h3, h4]
    · have hb : (sel.m - 1).testBit j = false :=
        testBit_eq_false_of_lt_of_le (by omega : sel.m - 1 < 2 ^ nkm.m.width) (by omega)
      simp [hj, hb]

/-- A bit that is set in the word read and lies in none of the three fields is set in the
word `ccu_nkm_set_rate` writes, whatever the selection (the all-zero one included). -/
theorem set_rate_word_keeps_set_bit (nkm : ccu_nkm) (hv : nkm.valid) (sel : _ccu_nkm)
    (reg0 i : Nat) (hi : i < 32) (hn : ¬ nkm.n.owns i) (hk : ¬ nkm.k.owns i)
    (hm : ¬ nkm.m.owns i) (hb : reg0.testBit i = true) :
    (set_rate_word nkm sel reg0).testBit i = true := by
  obtain ⟨vn, vk, vm, _, _, _⟩ := hv
  unfold set_rate_word
  simp only
  rw [testBit_field_set_any, testBit_field_set_any, testBit_field_set_any,
    testBit_field_clear _ _ vm, testBit_field_clear _ _ vk, testBit_field_clear _ _ vn]
  simp [hi, hn, hk, hm, hb]

/-- For a valid configuration the three bounds of the search are `2 ^ width`. -/
theorem init_nkm_max (nkm : ccu_nkm) (hv : nkm.valid) :
    (init_nkm nkm).max_n = 2 ^ nkm.n.width ∧ (init_nkm nkm).max_k = 2 ^ nkm.k.width ∧
    (init_nkm nkm).max_m = 2 ^ nkm.m.width := by
  obtain ⟨⟨_, wn⟩, ⟨_, wk⟩, ⟨_, wm⟩⟩ := ccu_nkm.valid_bounds hv
  exact ⟨int_to_ulong_shl_one _ wn, int_to_ulong_shl_one _ wk, int_to_ulong_shl_one _ wm⟩

/-- Whatever the widths, the bound `max_m` of the search is at least 1. -/
theorem init_nkm_max_m_pos (nkm : ccu_nkm) : 1 ≤ (init_nkm nkm).max_m :=
  int_to_ulong_shl_one_pos _

/-- Where the search selects a candidate, the claims on the register operations hold: for a
valid configuration, a primitive that keeps its contract and a target for which the
selection is not the all-zero one, `ccu_nkm_set_rate` writes a word that agrees with the
word read outside the three fields, and `ccu_nkm_recalc_rate` on that word returns the value
of `ccu_nkm_round_rate`. -/
theorem set_rate_recalc_round_of_selected (rba : Nat → Nat → Nat → Nat → Nat × Nat)
    (nkm : ccu_nkm) (rate parent_rate reg0 : Nat) (sel : _ccu_nkm)
    (hc : rba_contract rba) (hv : nkm.valid) (hr : rate < ULONG_MOD)
    (hreg : reg0 < U32_MOD)
    (hsel : ccu_nkm_find_best rba parent_rate rate (init_nkm nkm) = some sel)
    (hnz : sel.m ≠ 0) :
    ccu_nkm_set_rate rba nkm rate parent_rate reg0 = some (set_rate_word nkm sel reg0, 0) ∧
    (∀ i, ¬ nkm.n.owns i → ¬ nkm.k.owns i → ¬ nkm.m.owns i →
      (set_rate_word nkm sel reg0).testBit i = reg0.testBit i) ∧
    ccu_nkm_round_rate_ul rba nkm rate parent_rate =
      some (nkm_rate parent_rate sel.n sel.k sel.m) ∧
    ccu_nkm_recalc_rate nkm parent_rate (set_rate_word nkm sel reg0) =
      ccu_nkm_round_rate_ul rba nkm rate parent_rate := by
  obtain ⟨mn, mk, mm⟩ := init_nkm_max nkm hv
  have hm1 : 1 ≤ (init_nkm nkm).max_m := init_nkm_max_m_pos nkm
  obtain ⟨sel', e, _, _, _, hcase⟩ :=
    ccu_nkm_find_best_selection rba parent_rate rate (init_nkm nkm) hc hm1 hr
  rw [hsel] at e
  cases e
  rcases hcase with ⟨_, _, hz⟩ | ⟨n1, n2, k1, k2, m1, m2, _, _⟩
  · exact absurd hz hnz
  · rw [mn] at n2
    rw [mk] at k2
    rw [mm] at m2
    have hround : ccu_nkm_round_rate_ul rba nkm rate parent_rate =
        some (nkm_rate parent_rate sel.n sel.k sel.m) := by
      unfold ccu_nkm_round_rate_ul
      simp only [hsel, hnz, if_false]
      rfl
    obtain ⟨gn, gk, gm⟩ := field_get_set_rate_word nkm hv sel n1 n2 k1 k2 m1 m2 reg0
    have lt64 : ∀ w x : Nat, w ≤ 32 → x ≤ 2 ^ w → x < ULONG_MOD := by
      intro w x hw hx
      have : 2 ^ w ≤ 2 ^ 32 := Nat.pow_le_pow_right (by norm_num) hw
      unfold ULONG_MOD; omega
    have an : ul_add (sel.n - 1) 1 = sel.n := by
      unfold ul_add
      rw [Nat.sub_add_cancel n1, Nat.mod_eq_of_lt (lt64 _ _ (by have := hv.1.2; omega) n2)]
    have ak : ul_add (sel.k - 1) 1 = sel.k := by
      unfold ul_add
      rw [Nat.sub_add_cancel k1, Nat.mod_eq_of_lt (lt64 _ _ (by have := hv.2.1.2; omega) k2)]
    have am : ul_add (sel.m - 1) 1 = sel.m := by
      unfold ul_add
      rw [Nat.sub_add_cancel m1, Nat.mod_eq_of_lt (lt64 _ _ (by have := hv.2.2.1.2; omega) m2)]
    refine ⟨?_, ?_, hround, ?_⟩
    · unfold ccu_nkm_set_rate
      simp only [hsel]
    · intro i hn hk hm
      exact set_rate_word_frame nkm hv sel n1 n2 k1 k2 m1 m2 reg0 hreg i hn hk hm
    · rw [hround]
      unfold ccu_nkm_recalc_rate
      simp only [gn, gk, gm, an, ak, am, hnz, if_false]
      rfl

/-! ## Unachievable targets -/

/-- When even the smallest non-zero rate `parent / max_m` exceeds `rate` (and the products
of the search do not wrap), no candidate is selected, whatever the primitive returns within
its contract: the search returns the all-zero selection. -/
theorem ccu_nkm_find_best_unachievable (rba : Nat → Nat → Nat → Nat → Nat × Nat)
    (parent rate : Nat) (nkm : _ccu_nkm) (hc : rba_contract rba) (hm : 1 ≤ nkm.max_m)
    (hr : rate < ULONG_MOD) (hov : parent * nkm.max_n * nkm.max_k < ULONG_MOD)
    (hlow : rate < parent / nkm.max_m) :
    ccu_nkm_find_best rba parent rate nkm = some { nkm with n := 0, k := 0, m := 0 } := by
  obtain ⟨st, e, h1, _, h3⟩ := find_best_run_spec parent hc hm hr
  rw [ccu_nkm_find_best_of_run e]
  rcases h3 with h | ⟨b1, b2, hst, hpos, _⟩
  · rw [h]; rfl
  · exfalso
    have hb := hc (rate / st.best_k) parent nkm.max_n nkm.max_m hm
    have er : st.best_rate = cand_rate rba parent rate nkm st.best_k :=
      congrArg find_best_state.best_rate hst
    rw [cand_rate_eq_nkm_rate] at er
    rcases Nat.eq_zero_or_pos (rba (rate / st.best_k) parent nkm.max_n nkm.max_m).1 with h0 | h0
    · rw [h0, nkm_rate_zero_n] at er; omega
    · have hle2 : parent * (rba (rate / st.best_k) parent nkm.max_n nkm.max_m).1 * st.best_k ≤
          parent * nkm.max_n * nkm.max_k :=
        Nat.mul_le_mul (Nat.mul_le_mul_left _ hb.1) b2
      rw [nkm_rate_of_lt (lt_of_le_of_lt hle2 hov)] at er
      have hge : parent ≤
          parent * (rba (rate / st.best_k) parent nkm.max_n nkm.max_m).1 * st.best_k := by
        calc parent = parent * 1 * 1 := by simp
          _ ≤ _ := Nat.mul_le_mul (Nat.mul_le_mul_left _ h0) b1
      have hdiv : parent / nkm.max_m ≤
          parent * (rba (rate / st.best_k) parent nkm.max_n nkm.max_m).1 * st.best_k /
            (rba (rate / st.best_k) parent nkm.max_n nkm.max_m).2 :=
        le_trans (Nat.div_le_div_left hb.2.2 hb.2.1) (Nat.div_le_div_right hge)
      omega

/-! ## The claims on concrete inputs -/

/-- C1, counterexample: with `parent_rate = 10`, `target_rate = 19 ≥ parent_rate` and the
bounds 2, 2, 2 (three fields of width 1) the candidate of `K = 1` is 2/1 and the candidate
of `K = 2` is 1/1, both of rate 20 > 19; nothing is selected and the search returns
`n = k = m = 0`, which is not within `[1, max]`. -/
theorem find_best_all_zero_above_parent :
    0 < 10 ∧ 10 ≤ 19 ∧ (2 : Nat) = 2 ^ 1 ∧
    ccu_nkm_find_best rational_best_approximation 10 19 (bounds 2 2 2) =
      some (selection 0 0 0 2 2 2) ∧
    ¬ ∃ sel, ccu_nkm_find_best rational_best_approximation 10 19 (bounds 2 2 2) = some sel ∧
      1 ≤ sel.n ∧ sel.n ≤ 2 ∧ 1 ≤ sel.k ∧ sel.k ≤ 2 ∧ 1 ≤ sel.m ∧ sel.m ≤ 2 ∧
      nkm_rate 10 sel.n sel.k sel.m ≤ 19 := by
  have e : ccu_nkm_find_best rational_best_approximation 10 19 (bounds 2 2 2) =
      some (selection 0 0 0 2 2 2) := by decide!
  refine ⟨by decide, by decide, by decide, e, ?_⟩
  rintro ⟨sel, h, h1, _⟩
  rw [e] at h
  cases h
  exact absurd h1 (by decide)

/-- C1 (amended), witness: the example of the specification, `parent_rate = 24000000`,
`target_rate = 600000000`, bounds 32, 4, 16. -/
theorem ccu_nkm_find_best_zero_or_in_bounds_witness :
    rba_contract rational_best_approximation ∧ 1 ≤ (bounds 32 4 16).max_m ∧
    600000000 < ULONG_MOD ∧
    ∃ sel, ccu_nkm_find_best rational_best_approximation 24000000 600000000
        (bounds 32 4 16) = some sel ∧
      ((sel.n = 0 ∧ sel.k = 0 ∧ sel.m = 0) ↔
        ∀ K, 1 ≤ K → K ≤ (bounds 32 4 16).max_k →
          ¬ (0 < cand_rate rational_best_approximation 24000000 600000000 (bounds 32 4 16) K ∧
            cand_rate rational_best_approximation 24000000 600000000 (bounds 32 4 16) K ≤
              600000000)) ∧
      ((sel.n = 0 ∧ sel.k = 0 ∧ sel.m = 0) ∨
        (1 ≤ sel.n ∧ sel.n ≤ (bounds 32 4 16).max_n ∧ 1 ≤ sel.k ∧
          sel.k ≤ (bounds 32 4 16).max_k ∧
          1 ≤ sel.m ∧ sel.m ≤ (bounds 32 4 16).max_m ∧
          nkm_rate 24000000 sel.n sel.k sel.m ≤ 600000000 ∧
          (24000000 * (bounds 32 4 16).max_n * (bounds 32 4 16).max_k < ULONG_MOD →
            24000000 * sel.n * sel.k / sel.m ≤ 600000000))) :=
  ⟨rational_best_approximation_contract, by decide, by decide,
    ccu_nkm_find_best_zero_or_in_bounds rational_best_approximation 24000000 600000000
      (bounds 32 4 16) rational_best_approximation_contract (by decide) (by decide)⟩

/-- C2, counterexample, inside the bounds 8, 8, 8 (all widths 3): for `parent_rate = 10`
and `target_rate = 31` the search returns `n = 3, k = 1, m = 1` of rate 30, while
`n = 5, k = 5, m = 8` is within the bounds and has the rate `10 * 5 * 5 / 8 = 31 ≤ 31`. -/
theorem find_best_not_optimal :
    ∃ sel, ccu_nkm_find_best rational_best_approximation 10 31 (bounds 8 8 8) = some sel ∧
      sel = selection 3 1 1 8 8 8 ∧
      ∃ n' k' m', 1 ≤ n' ∧ n' ≤ 8 ∧ 1 ≤ k' ∧ k' ≤ 8 ∧ 1 ≤ m' ∧ m' ≤ 8 ∧
        nkm_rate 10 n' k' m' ≤ 31 ∧ 10 * n' * k' / m' ≤ 31 ∧
        nkm_rate 10 sel.n sel.k sel.m < nkm_rate 10 n' k' m' ∧
        10 * sel.n * sel.k / sel.m < 10 * n' * k' / m' :=
  ⟨selection 3 1 1 8 8 8, by decide!, rfl, 5, 5, 8, by decide!⟩

/-- C2 (amended), witness: `parent_rate = 10`, `target_rate = 31`, bounds 8, 8, 8. -/
theorem ccu_nkm_find_best_no_better_candidate_witness :
    rba_contract rational_best_approximation ∧ 1 ≤ (bounds 8 8 8).max_m ∧ 31 < ULONG_MOD ∧
    ∃ sel, ccu_nkm_find_best rational_best_approximation 10 31 (bounds 8 8 8) = some sel ∧
      ¬ ∃ k', 1 ≤ k' ∧ k' ≤ (bounds 8 8 8).max_k ∧
        nkm_rate 10 (rational_best_approximation (31 / k') 10 (bounds 8 8 8).max_n
            (bounds 8 8 8).max_m).1 k'
          (rational_best_approximation (31 / k') 10 (bounds 8 8 8).max_n
            (bounds 8 8 8).max_m).2 ≤ 31 ∧
        selection_rate 10 sel <
          nkm_rate 10 (rational_best_approximation (31 / k') 10 (bounds 8 8 8).max_n
              (bounds 8 8 8).max_m).1 k'
            (rational_best_approximation (31 / k') 10 (bounds 8 8 8).max_n
              (bounds 8 8 8).max_m).2 :=
  ⟨rational_best_approximation_contract, by decide, by decide,
    ccu_nkm_find_best_no_better_candidate rational_best_approximation 10 31 (bounds 8 8 8)
      rational_best_approximation_contract (by decide) (by decide)⟩

/-- C3, failing input: `parent_rate = 24000000`, `target_rate = 1000000`, widths 5, 2, 4,
register word 0. The search returns the all-zero selection; `ccu_nkm_round_rate` then
divides by `_nkm.m = 0` and has no result, while `ccu_nkm_set_rate` writes `0xFFFFFFFF`, from
which `ccu_nkm_recalc_rate` returns 192000000. On the example of the specification
(`target_rate = 600000000`) both give 600000000. -/
theorem set_rate_recalc_differs_from_round_rate :
    ccu_nkm_find_best rational_best_approximation 24000000 1000000 (init_nkm example_hw) =
      some (selection 0 0 0 32 4 16) ∧
    ccu_nkm_round_rate rational_best_approximation example_hw 1000000 24000000 = none ∧
    ccu_nkm_set_rate rational_best_approximation example_hw 1000000 24000000 0 =
      some (4294967295, 0) ∧
    ccu_nkm_recalc_rate example_hw 24000000 4294967295 = some 192000000 ∧
    ccu_nkm_round_rate rational_best_approximation example_hw 600000000 24000000 =
      some 600000000 ∧
    ccu_nkm_set_rate rational_best_approximation example_hw 600000000 24000000 0 =
      some (6144, 0) ∧
    ccu_nkm_recalc_rate example_hw 24000000 6144 = some 600000000 := by
  decide!

/-- C4, counterexample: the field of width 32 at bit 0 satisfies `width ≥ 1` and
`shift + width ≤ 32`. With the word 0 and the value 2 the update gives the word 1, but the
mask `(1 << 32) - 1` of the decoding is computed in `int`, where the shift count is taken
modulo 32: the mask is 0 and the decoding yields 0, not `v - 1 = 1`. -/
theorem field_codec_round_trip_fails_at_width_32 :
    0 < U32_MOD ∧ 1 ≤ full_width_field.width ∧
    full_width_field.shift + full_width_field.width ≤ 32 ∧
    1 ≤ 2 ∧ 2 ≤ 2 ^ full_width_field.width ∧
    field_set (field_clear 0 full_width_field) full_width_field 2 = 1 ∧
    int_to_ulong (int_sub_one (int_shl_one full_width_field.width)) = 0 ∧
    field_get (field_set (field_clear 0 full_width_field) full_width_field 2)
      full_width_field = 0 ∧
    field_get (field_set (field_clear 0 full_width_field) full_width_field 2)
      full_width_field ≠ 2 - 1 := by
  decide!

/-- C4 (amended), witness: the value 25 in the 5-bit field at bit 8 of the word
`0xFFFFFFFF`. -/
theorem field_codec_round_trip_witness :
    4294967295 < U32_MOD ∧ 1 ≤ example_hw.n.width ∧ example_hw.n.width ≤ 31 ∧
    example_hw.n.shift + example_hw.n.width ≤ 32 ∧ 1 ≤ 25 ∧ 25 ≤ 2 ^ example_hw.n.width ∧
    field_get (field_set (field_clear 4294967295 example_hw.n) example_hw.n 25)
      example_hw.n = 25 - 1 ∧
    ∀ i, (i < example_hw.n.shift ∨ example_hw.n.shift + example_hw.n.width ≤ i) →
      (field_set (field_clear 4294967295 example_hw.n) example_hw.n 25).testBit i =
        Nat.testBit 4294967295 i :=
  ⟨by decide, by decide, by decide, by decide, by decide, by decide,
    field_codec_round_trip 4294967295 example_hw.n 25 (by decide) (by decide) (by decide)
      (by decide) (by decide) (by decide)⟩

/-- C5, failing input: `parent_rate = 24000000`, `target_rate = 1000000` (no rate is
achievable), widths 5, 2, 4 at bits 8, 4, 0, register word 0. The word written back is
`0xFFFFFFFF`: bit 31, which belongs to none of the three fields, was 0 in the word read and
is 1 in the word written. -/
theorem set_rate_changes_bits_outside_fields :
    example_hw.valid ∧
    ccu_nkm_set_rate rational_best_approximation example_hw 1000000 24000000 0 =
      some (4294967295, 0) ∧
    ¬ example_hw.n.owns 31 ∧ ¬ example_hw.k.owns 31 ∧ ¬ example_hw.m.owns 31 ∧
    Nat.testBit 0 31 = false ∧ Nat.testBit 4294967295 31 = true := by
  decide!

/-- C6, failing sequence: on the register word `0x80000000` (clock enabled), `disable()`
clears the enable bit 31 (`is_enabled()` would return false), the rate operation
`set_rate(1000000, 24000000)` in between sets it again, and `is_enabled()` returns true. -/
theorem disable_then_set_rate_is_enabled :
    example_hw.valid ∧
    ¬ example_hw.n.owns example_hw.enable ∧ ¬ example_hw.k.owns example_hw.enable ∧
    ¬ example_hw.m.owns example_hw.enable ∧
    ccu_nkm_is_enabled example_hw (ccu_nkm_disable example_hw 2147483648) = false ∧
    (ccu_nkm_set_rate rational_best_approximation example_hw 1000000 24000000
        (ccu_nkm_disable example_hw 2147483648)).map
      (fun r => ccu_nkm_is_enabled example_hw r.1) = some true := by
  decide!

/-- C7, counterexample: `parent_rate = 24000000`, `target_rate = 100000`, bounds 32, 4, 16.
The candidates of `K = 1, 2, 3, 4` all are 0/1, of rate 0: they all survive with the same,
overall smallest, error 100000, yet none is selected and the returned `k` is 0, not 1.
The same happens without a zero numerator when the product wraps to 0: for
`parent_rate = 2 ^ 63`, `target_rate = 2 ^ 64 - 1` and the bounds 2, 2, 1 the candidates
are 2/1 for `K = 1` and 1/1 for `K = 2`, both of rate 0 on `unsigned long`. -/
theorem find_best_tie_at_zero_rate :
    (cand_rate rational_best_approximation 24000000 100000 (bounds 32 4 16) 1 = 0 ∧
      cand_rate rational_best_approximation 24000000 100000 (bounds 32 4 16) 2 = 0 ∧
      cand_rate rational_best_approximation 24000000 100000 (bounds 32 4 16) 3 = 0 ∧
      cand_rate rational_best_approximation 24000000 100000 (bounds 32 4 16) 4 = 0 ∧
      ccu_nkm_find_best rational_best_approximation 24000000 100000 (bounds 32 4 16) =
        some (selection 0 0 0 32 4 16) ∧
      (selection 0 0 0 32 4 16).k ≠ 1) ∧
    (rational_best_approximation (18446744073709551615 / 1) 9223372036854775808 2 1 = (2, 1) ∧
      rational_best_approximation (18446744073709551615 / 2) 9223372036854775808 2 1 = (1, 1) ∧
      cand_rate rational_best_approximation 9223372036854775808 18446744073709551615
        (bounds 2 2 1) 1 = 0 ∧
      cand_rate rational_best_approximation 9223372036854775808 18446744073709551615
        (bounds 2 2 1) 2 = 0 ∧
      ccu_nkm_find_best rational_best_approximation 9223372036854775808 18446744073709551615
        (bounds 2 2 1) = some (selection 0 0 0 2 2 1) ∧
      (selection 0 0 0 2 2 1).k ≠ 1) := by
  decide!

/-- C7 (amended), witness: the example of the claim, `parent_rate = 24000000`,
`target_rate = 600000000`, bounds 32, 4, 16: `K = 1` (25/1) and `K = 2` (25/2) both give
600000000; the theorem applied at `k1 = 2` bounds the returned `k`, which is 1. -/
theorem ccu_nkm_find_best_tie_smallest_k_witness :
    ccu_nkm_find_best rational_best_approximation 24000000 600000000 (bounds 32 4 16) =
      some (selection 25 1 1 32 4 16) ∧
    cand_rate rational_best_approximation 24000000 600000000 (bounds 32 4 16) 1 = 600000000 ∧
    cand_rate rational_best_approximation 24000000 600000000 (bounds 32 4 16) 2 = 600000000 ∧
    ∃ sel, ccu_nkm_find_best rational_best_approximation 24000000 600000000
        (bounds 32 4 16) = some sel ∧
      1 ≤ sel.k ∧ sel.k ≤ 2 ∧
      cand_rate rational_best_approximation 24000000 600000000 (bounds 32 4 16) sel.k =
        cand_rate rational_best_approximation 24000000 600000000 (bounds 32 4 16) 2 ∧
      (∀ k, 1 ≤ k → k < sel.k →
        cand_rate rational_best_approximation 24000000 600000000 (bounds 32 4 16) k ≠
          cand_rate rational_best_approximation 24000000 600000000 (bounds 32 4 16) 2) ∧
      sel.n = (rational_best_approximation (600000000 / sel.k) 24000000
        (bounds 32 4 16).max_n (bounds 32 4 16).max_m).1 ∧
      sel.m = (rational_best_approximation (600000000 / sel.k) 24000000
        (bounds 32 4 16).max_n (bounds 32 4 16).max_m).2 := by
  have c2 : cand_rate rational_best_approximation 24000000 600000000 (bounds 32 4 16) 2 =
      600000000 := by decide!
  refine ⟨by decide!, by decide!, c2, ?_⟩
  exact ccu_nkm_find_best_tie_smallest_k rational_best_approximation 24000000 600000000
    (bounds 32 4 16) rational_best_approximation_contract (by decide) (by decide) 2
    (by decide) (by decide) (by rw [c2]) (by rw [c2]; decide)
    (fun k _ _ _ => by rw [c2]; simp)

/-- C8, witness: `parent_rate = 24000000`, `target_rate = 1000000 < 24000000 / 16`, bounds
1, 1, 16. -/
theorem ccu_nkm_find_best_degenerate_witness :
    rba_contract rational_best_approximation ∧ 24000000 < ULONG_MOD ∧
    1 ≤ (bounds 1 1 16).max_m ∧ (bounds 1 1 16).max_n = 1 ∧ (bounds 1 1 16).max_k = 1 ∧
    1000000 < 24000000 / (bounds 1 1 16).max_m ∧
    ccu_nkm_find_best rational_best_approximation 24000000 1000000 (bounds 1 1 16) =
      some { bounds 1 1 16 with n := 0, k := 0, m := 0 } :=
  ⟨rational_best_approximation_contract, by decide, by decide, rfl, rfl, by decide,
    ccu_nkm_find_best_degenerate rational_best_approximation 24000000 1000000 (bounds 1 1 16)
      rational_best_approximation_contract (by decide) (by decide) rfl rfl (by decide)⟩

/-- C9, failing input: `parent_rate = 24000000 > 0`, `target_rate = 1000000 > 0`, widths
5, 2, 4. The search returns the all-zero selection, so the divisor `_nkm.m` of the final
expression of `ccu_nkm_round_rate` is zero and the call returns no rate. -/
theorem round_rate_divides_by_zero :
    0 < 24000000 ∧ 0 < 1000000 ∧ example_hw.valid ∧
    ccu_nkm_find_best rational_best_approximation 24000000 1000000 (init_nkm example_hw) =
      some (selection 0 0 0 32 4 16) ∧
    (selection 0 0 0 32 4 16).m = 0 ∧
    ccu_nkm_round_rate_ul rational_best_approximation example_hw 1000000 24000000 = none ∧
    ccu_nkm_round_rate rational_best_approximation example_hw 1000000 24000000 = none := by
  decide!

/-- C10, counterexample: three fields of width ≥ 1, the N field of width 32 at bit 0, the
register word 1 and `parent_rate = 24000000`. The claim's raw values
`(word >> shift) & (2 ^ width - 1)` are 1, 0, 1 and give `24000000 * 2 * 1 / 2 = 24000000`;
the code computes the mask of N in `int` as `(1 << 32) - 1 = 0`, decodes N as 0 and returns
`24000000 * 1 * 1 / 2 = 12000000`. -/
theorem recalc_rate_differs_at_width_32 :
    1 < U32_MOD ∧ 1 ≤ full_width_hw.n.width ∧ 1 ≤ full_width_hw.k.width ∧
    1 ≤ full_width_hw.m.width ∧
    (1 >>> full_width_hw.n.shift) &&& (2 ^ full_width_hw.n.width - 1) = 1 ∧
    (1 >>> full_width_hw.k.shift) &&& (2 ^ full_width_hw.k.width - 1) = 0 ∧
    (1 >>> full_width_hw.m.shift) &&& (2 ^ full_width_hw.m.width - 1) = 1 ∧
    24000000 * (1 + 1) * (0 + 1) / (1 + 1) = 24000000 ∧
    field_get 1 full_width_hw.n = 0 ∧
    ccu_nkm_recalc_rate full_width_hw 24000000 1 = some 12000000 ∧
    ccu_nkm_recalc_rate full_width_hw 24000000 1 ≠
      some (24000000 * (((1 >>> full_width_hw.n.shift) &&& (2 ^ full_width_hw.n.width - 1)) + 1)
        * (((1 >>> full_width_hw.k.shift) &&& (2 ^ full_width_hw.k.width - 1)) + 1)
        / (((1 >>> full_width_hw.m.shift) &&& (2 ^ full_width_hw.m.width - 1)) + 1)) := by
  decide!

/-- C10 (amended), witness: the register word `0x1800` (N = 25, K = 1, M = 1) of the
example clock with `parent_rate = 24000000`. -/
theorem ccu_nkm_recalc_rate_total_witness :
    6144 < U32_MOD ∧
    (example_hw.n.shift ≤ 31 ∧ example_hw.n.width ≤ 31) ∧
    (example_hw.k.shift ≤ 31 ∧ example_hw.k.width ≤ 31) ∧
    (example_hw.m.shift ≤ 31 ∧ example_hw.m.width ≤ 31) ∧
    ccu_nkm_recalc_rate example_hw 24000000 6144 = some 600000000 ∧
    (1 ≤ ul_add (field_get 6144 example_hw.m) 1 ∧
      ccu_nkm_recalc_rate example_hw 24000000 6144 =
        some (nkm_rate 24000000 (field_get 6144 example_hw.n + 1)
          (field_get 6144 example_hw.k + 1) (field_get 6144 example_hw.m + 1))) ∧
    (1 ≤ 6144 / 2 ^ example_hw.m.shift % 2 ^ example_hw.m.width + 1 ∧
      ccu_nkm_recalc_rate example_hw 24000000 6144 =
        some (nkm_rate 24000000 (6144 / 2 ^ example_hw.n.shift % 2 ^ example_hw.n.width + 1)
          (6144 / 2 ^ example_hw.k.shift % 2 ^ example_hw.k.width + 1)
          (6144 / 2 ^ example_hw.m.shift % 2 ^ example_hw.m.width + 1)) ∧
      (24000000 * (6144 / 2 ^ example_hw.n.shift % 2 ^ example_hw.n.width + 1) *
          (6144 / 2 ^ example_hw.k.shift % 2 ^ example_hw.k.width + 1) < ULONG_MOD →
        ccu_nkm_recalc_rate example_hw 24000000 6144 =
          some (24000000 * (6144 / 2 ^ example_hw.n.shift % 2 ^ example_hw.n.width + 1) *
            (6144 / 2 ^ example_hw.k.shift % 2 ^ example_hw.k.width + 1) /
            (6144 / 2 ^ example_hw.m.shift % 2 ^ example_hw.m.width + 1)))) :=
  ⟨by decide, by decide, by decide, by decide, by decide!,
    (ccu_nkm_recalc_rate_total example_hw 24000000 6144 (by decide)).1,
    (ccu_nkm_recalc_rate_total example_hw 24000000 6144 (by decide)).2 (by decide)
      (by decide) (by decide)⟩

/-! ## The search, whatever the primitive returns -/

/-- An iteration that has a result keeps the state or stores the candidate of `_k`, and the
divisor of that candidate is not zero. -/
theorem find_best_body_some {rba : Nat → Nat → Nat → Nat → Nat × Nat} {parent rate : Nat}
    {nkm : _ccu_nkm} {st st1 : find_best_state} {_k : Nat}
    (h : find_best_body rba parent rate nkm st _k = some st1) :
    (rba (rate / _k) parent nkm.max_n nkm.max_m).2 ≠ 0 ∧
      (st1 = st ∨ st1 = cand_state rba parent rate nkm _k) := by
  rw [find_best_body_unfold] at h
  by_cases hm : (rba (rate / _k) parent nkm.max_n nkm.max_m).2 = 0
  · rw [if_pos hm] at h; exact absurd h (by simp)
  · rw [if_neg hm] at h
    refine ⟨hm, ?_⟩
    split_ifs at h with h1 h2
    · exact Or.inl (Option.some.inj h).symm
    · exact Or.inr (Option.some.inj h).symm
    · exact Or.inl (Option.some.inj h).symm

/-- Whatever the primitive returns, a loop that has a result ends in the state it started
from or in the candidate of one of its values of `_k`, whose divisor is not zero. -/
theorem find_best_loop_some {rba : Nat → Nat → Nat → Nat → Nat × Nat} {parent rate : Nat}
    {nkm : _ccu_nkm} :
    ∀ (ks : List Nat) (st st1 : find_best_state),
      find_best_loop rba parent rate nkm ks st = some st1 →
      st1 = st ∨ ∃ k ∈ ks, st1 = cand_state rba parent rate nkm k ∧
        (rba (rate / k) parent nkm.max_n nkm.max_m).2 ≠ 0 := by
  intro ks
  induction ks with
  | nil =>
    intro st st1 h
    exact Or.inl (Option.some.inj h).symm
  | cons k0 rest ih =>
    intro st st1 h
    cases hb : find_best_body rba parent rate nkm st k0 with
    | none => simp [find_best_loop, hb] at h
    | some st0 =>
      rw [find_best_loop_cons _ _ _ _ _ _ _ _ hb] at h
      obtain ⟨hm, hcase⟩ := find_best_body_some hb
      rcases ih st0 st1 h with e | ⟨k, hk, e, hk0⟩
      · rcases hcase with e0 | e0
        · exact Or.inl (e.trans e0)
        · exact Or.inr ⟨k0, List.mem_cons_self _ _, e.trans e0, hm⟩
      · exact Or.inr ⟨k, List.mem_cons_of_mem _ hk, e, hk0⟩

/-- A loop all of whose candidates exceed `rate` has a result and leaves the state as it
is. -/
theorem find_best_loop_all_rejected {rba : Nat → Nat → Nat → Nat → Nat × Nat}
    {parent rate : Nat} {nkm : _ccu_nkm} :
    ∀ (ks : List Nat) (st : find_best_state),
      (∀ k ∈ ks, rate < cand_rate rba parent rate nkm k) →
      find_best_loop rba parent rate nkm ks st = some st := by
  intro ks
  induction ks with
  | nil => intro st _; rfl
  | cons k0 rest ih =>
    intro st h
    have h0 := h k0 (List.mem_cons_self _ _)
    have hm : (rba (rate / k0) parent nkm.max_n nkm.max_m).2 ≠ 0 := by
      intro e
      unfold cand_rate at h0
      rw [e, Nat.div_zero] at h0
      exact absurd h0 (Nat.not_lt_zero _)
    have hb : find_best_body rba parent rate nkm st k0 = some st := by
      rw [find_best_body_unfold, if_neg hm, if_pos h0]
    rw [find_best_loop_cons _ _ _ _ _ _ _ _ hb]
    exact ih st (fun k hk => h k (List.mem_cons_of_mem _ hk))

/-- C16: if for every `K` in `1..max_k` the candidate rate `parent * n_K * K / m_K` exceeds
`rate`, then `ccu_nkm_find_best` has a result and it is the all-zero selection
`n = k = m = 0` (whatever the primitive returns otherwise). -/
theorem ccu_nkm_find_best_all_rejected (rba : Nat → Nat → Nat → Nat → Nat × Nat)
    (parent rate : Nat) (nkm : _ccu_nkm)
    (h : ∀ K, 1 ≤ K → K ≤ nkm.max_k → rate < cand_rate rba parent rate nkm K) :
    ccu_nkm_find_best rba parent rate nkm = some { nkm with n := 0, k := 0, m := 0 } := by
  have hrun : find_best_run rba parent rate nkm = some find_best_init := by
    unfold find_best_run
    apply find_best_loop_all_rejected
    intro k hk
    have := List.mem_range'_1.mp hk
    exact h k this.1 (by omega)
  rw [ccu_nkm_find_best_of_run hrun]
  rfl

/-- C16, witness: `parent_rate = 10`, `target_rate = 19`, bounds 2, 2, 2; both candidates
have rate 20. -/
theorem ccu_nkm_find_best_all_rejected_witness :
    (∀ K, 1 ≤ K → K ≤ (bounds 2 2 2).max_k →
      19 < cand_rate rational_best_approximation 10 19 (bounds 2 2 2) K) ∧
    ccu_nkm_find_best rational_best_approximation 10 19 (bounds 2 2 2) =
      some { bounds 2 2 2 with n := 0, k := 0, m := 0 } := by
  have h : ∀ K, 1 ≤ K → K ≤ (bounds 2 2 2).max_k →
      19 < cand_rate rational_best_approximation 10 19 (bounds 2 2 2) K := by
    intro K h1 h2
    have h2' : K ≤ 2 := h2
    interval_cases K
    · decide!
    · decide!
  exact ⟨h, ccu_nkm_find_best_all_rejected rational_best_approximation 10 19 (bounds 2 2 2) h⟩

/-- C18: on every input on which the search ends with a selection that is not the all-zero
one, the value of `parent_rate * n * k / m` that `ccu_nkm_round_rate` recomputes from the
returned factors is the candidate rate `best_rate` the search computed and compared for
that selection. The function returns this `unsigned long` value converted to `long`, which
is the same number whenever it is below `2 ^ 63`. -/
theorem ccu_nkm_round_rate_eq_best_rate (rba : Nat → Nat → Nat → Nat → Nat × Nat)
    (nkm : ccu_nkm) (rate parent_rate : Nat) (st : find_best_state)
    (hrun : find_best_run rba parent_rate rate (init_nkm nkm) = some st)
    (hnz : ¬ (st.best_n = 0 ∧ st.best_k = 0 ∧ st.best_m = 0)) :
    ccu_nkm_find_best rba parent_rate rate (init_nkm nkm) =
      some { init_nkm nkm with n := st.best_n, k := st.best_k, m := st.best_m } ∧
    st.best_rate = nkm_rate parent_rate st.best_n st.best_k st.best_m ∧
    ccu_nkm_round_rate_ul rba nkm rate parent_rate = some st.best_rate ∧
    ccu_nkm_round_rate rba nkm rate parent_rate = some (ulong_to_long st.best_rate) ∧
    (st.best_rate < 2 ^ 63 →
      ccu_nkm_round_rate rba nkm rate parent_rate = some (st.best_rate : Int)) := by
  have hfind := ccu_nkm_find_best_of_run hrun
  have hst : ∃ k, st = cand_state rba parent_rate rate (init_nkm nkm) k ∧
      (rba (rate / k) parent_rate (init_nkm nkm).max_n (init_nkm nkm).max_m).2 ≠ 0 := by
    rcases find_best_loop_some _ _ _ hrun with e | ⟨k, _, e, hk⟩
    · exfalso; apply hnz; rw [e]; exact ⟨rfl, rfl, rfl⟩
    · exact ⟨k, e, hk⟩
  obtain ⟨k, e, hk⟩ := hst
  have hm : st.best_m ≠ 0 := by rw [e]; exact hk
  have hr : st.best_rate = nkm_rate parent_rate st.best_n st.best_k st.best_m := by
    rw [e]; rfl
  have hul : ccu_nkm_round_rate_ul rba nkm rate parent_rate = some st.best_rate := by
    unfold ccu_nkm_round_rate_ul
    simp only [hfind, hm, if_false]
    rw [hr]; rfl
  have hl : ccu_nkm_round_rate rba nkm rate parent_rate =
      some (ulong_to_long st.best_rate) := by
    unfold ccu_nkm_round_rate
    rw [hul]; rfl
  refine ⟨hfind, hr, hul, hl, ?_⟩
  intro hlt
  rw [hl]
  unfold ulong_to_long
  rw [if_pos hlt]

/-! ## Selection among the candidates -/

/-- C15: selection among the per-`K` candidates. With `cand(K) = parent * n_K * K / m_K`
for the pair `(n_K, m_K)` the primitive returns for `rate / K`, the rate of the selection
`ccu_nkm_find_best` returns (0 for the all-zero selection) is at most `rate` and at least
`cand(K)` for every `K` in `1..max_k` with `cand(K) ≤ rate`, so `rate - cand(K)` is
smallest for it; and this rate is 0 with the all-zero selection, or the candidate rate of
the returned `k`. -/
theorem ccu_nkm_find_best_minimises_error (rba : Nat → Nat → Nat → Nat → Nat × Nat)
    (parent rate : Nat) (nkm : _ccu_nkm) (hc : rba_contract rba) (hm : 1 ≤ nkm.max_m)
    (hr : rate < ULONG_MOD) :
    ∃ sel, ccu_nkm_find_best rba parent rate nkm = some sel ∧
      selection_rate parent sel ≤ rate ∧
      (∀ K, 1 ≤ K → K ≤ nkm.max_k → cand_rate rba parent rate nkm K ≤ rate →
        cand_rate rba parent rate nkm K ≤ selection_rate parent sel ∧
        rate - selection_rate parent sel ≤ rate - cand_rate rba parent rate nkm K) ∧
      ((sel.n = 0 ∧ sel.k = 0 ∧ sel.m = 0 ∧ selection_rate parent sel = 0) ∨
        (1 ≤ sel.k ∧ sel.k ≤ nkm.max_k ∧
          selection_rate parent sel = cand_rate rba parent rate nkm sel.k)) := by
  obtain ⟨st, e, h1, h2, h3⟩ := find_best_run_spec parent hc hm hr
  have hrate : selection_rate parent
      { nkm with n := st.best_n, k := st.best_k, m := st.best_m } = st.best_rate := by
    rcases h3 with h | ⟨_, _, hst, _, _⟩
    · rw [h]; rfl
    · have hb := hc (rate / st.best_k) parent nkm.max_n nkm.max_m hm
      have em : st.best_m = (rba (rate / st.best_k) parent nkm.max_n nkm.max_m).2 :=
        congrArg find_best_state.best_m hst
      have hm0 : st.best_m ≠ 0 := by rw [em]; omega
      unfold selection_rate
      simp only [hm0, if_false]
      conv_rhs => rw [hst]
      conv_lhs => rw [hst]
      rfl
  refine ⟨_, ccu_nkm_find_best_of_run e, ?_, ?_, ?_⟩
  · rw [hrate]; exact h1
  · intro K hK1 hK2 hle
    rw [hrate]
    have := h2 K hK1 hK2 hle
    exact ⟨this, by omega⟩
  · rcases h3 with h | ⟨b1, b2, hst, _, _⟩
    · left
      refine ⟨by rw [h]; rfl, by rw [h]; rfl, by rw [h]; rfl, ?_⟩
      rw [hrate, h]; rfl
    · right
      refine ⟨b1, b2, ?_⟩
      rw [hrate]
      exact congrArg find_best_state.best_rate hst

/-- C17: output dichotomy. With `parent * max_n * max_k` not overflowing the machine word
and a primitive returning `n ≤ max_n` and `1 ≤ m ≤ max_m`, the selection
`ccu_nkm_find_best` returns is either exactly `n = k = m = 0`, or satisfies
`1 ≤ n ≤ max_n`, `1 ≤ k ≤ max_k`, `1 ≤ m ≤ max_m` and `0 < parent * n * k / m ≤ rate`:
no partially-zero selection and no selection above the target is returned. -/
theorem ccu_nkm_find_best_dichotomy (rba : Nat → Nat → Nat → Nat → Nat × Nat)
    (parent rate : Nat) (nkm : _ccu_nkm) (hc : rba_contract rba) (hm : 1 ≤ nkm.max_m)
    (hr : rate < ULONG_MOD) (hov : parent * nkm.max_n * nkm.max_k < ULONG_MOD) :
    ∃ sel, ccu_nkm_find_best rba parent rate nkm = some sel ∧
      ((sel.n = 0 ∧ sel.k = 0 ∧ sel.m = 0) ∨
        (1 ≤ sel.n ∧ sel.n ≤ nkm.max_n ∧ 1 ≤ sel.k ∧ sel.k ≤ nkm.max_k ∧
          1 ≤ sel.m ∧ sel.m ≤ nkm.max_m ∧
          0 < parent * sel.n * sel.k / sel.m ∧ parent * sel.n * sel.k / sel.m ≤ rate)) := by
  obtain ⟨sel, e, _, _, _, hcase⟩ := ccu_nkm_find_best_selection rba parent rate nkm hc hm hr
  refine ⟨sel, e, ?_⟩
  rcases hcase with hz | ⟨n1, n2, k1, k2, m1, m2, hpos, hle⟩
  · exact Or.inl hz
  · have hle2 : parent * sel.n * sel.k ≤ parent * nkm.max_n * nkm.max_k :=
      Nat.mul_le_mul (Nat.mul_le_mul_left _ n2) k2
    rw [nkm_rate_of_lt (lt_of_le_of_lt hle2 hov)] at hpos hle
    exact Or.inr ⟨n1, n2, k1, k2, m1, m2, hpos, hle⟩

/-! ## Order of the field updates -/

/-- Bits of the word after the update of one field with a value that fits it. -/
theorem testBit_encode_update (reg : Nat) (f : FactorField) (hf : f.valid) (v : Nat)
    (hv1 : 1 ≤ v) (hv2 : v ≤ 2 ^ f.width) (i : Nat) :
    (encode_update reg f v).testBit i =
      (decide (i < 32) &&
        ((reg.testBit i && !decide (f.owns i)) ||
          (decide (f.owns i) && (v - 1).testBit (i - f.shift)))) := by
  unfold encode_update
  rw [testBit_field_set_valid _ _ hf _ hv1 hv2, testBit_field_clear _ _ hf]
  by_cases h32 : i < 32
  · simp [h32]
  · simp [h32]

/-- The updates of two fields without a common bit commute. -/
theorem encode_update_comm (reg : Nat) (f g : FactorField) (hf : f.valid) (hg : g.valid)
    (hd : f.disjoint g) (v u : Nat) (hv1 : 1 ≤ v) (hv2 : v ≤ 2 ^ f.width)
    (hu1 : 1 ≤ u) (hu2 : u ≤ 2 ^ g.width) :
    encode_update (encode_update reg f v) g u = encode_update (encode_update reg g u) f v := by
  apply Nat.eq_of_testBit_eq
  intro i
  rw [testBit_encode_update _ _ hg _ hu1 hu2, testBit_encode_update _ _ hf _ hv1 hv2,
    testBit_encode_update _ _ hf _ hv1 hv2, testBit_encode_update _ _ hg _ hu1 hu2]
  by_cases h32 : i < 32
  · by_cases hfo : f.owns i
    · have hgo : ¬ g.owns i := by
        unfold FactorField.owns at hfo ⊢; unfold FactorField.disjoint at hd; omega
      simp [h32, hfo, hgo]
    · simp [h32, hfo]
  · simp [h32]

/-- The three updates in the order N, K, M give the word `ccu_nkm_set_rate` writes. -/
theorem encode_update_nkm_eq_set_rate_word (nkm : ccu_nkm) (hv : nkm.valid) (sel : _ccu_nkm)
    (hn1 : 1 ≤ sel.n) (hn2 : sel.n ≤ 2 ^ nkm.n.width)
    (hk1 : 1 ≤ sel.k) (hk2 : sel.k ≤ 2 ^ nkm.k.width)
    (hm1 : 1 ≤ sel.m) (hm2 : sel.m ≤ 2 ^ nkm.m.width) (reg : Nat) :
    encode_update (encode_update (encode_update reg nkm.n sel.n) nkm.k sel.k) nkm.m sel.m =
      set_rate_word nkm sel reg := by
  have hv' := hv
  obtain ⟨vn, vk, vm, dnk, dnm, dkm⟩ := hv'
  apply Nat.eq_of_testBit_eq
  intro i
  rw [testBit_set_rate_word nkm hv sel hn1 hn2 hk1 hk2 hm1 hm2,
    testBit_encode_update _ _ vm _ hm1 hm2, testBit_encode_update _ _ vk _ hk1 hk2,
    testBit_encode_update _ _ vn _ hn1 hn2]
  by_cases h32 : i < 32
  · by_cases hno : nkm.n.owns i
    · have hko : ¬ nkm.k.owns i := by
        unfold FactorField.owns at hno ⊢; unfold FactorField.disjoint at dnk; omega
      have hmo : ¬ nkm.m.owns i := by
        unfold FactorField.owns at hno ⊢; unfold FactorField.disjoint at dnm; omega
      simp [h32, hno, hko, hmo]
    · by_cases hko : nkm.k.owns i
      · have hmo : ¬ nkm.m.owns i := by
          unfold FactorField.owns at hko ⊢; unfold FactorField.disjoint at dkm; omega
        simp [h32, hno, hko, hmo]
      · by_cases hmo : nkm.m.owns i
        · simp [h32, hno, hko, hmo]
        · simp [h32, hno, hko, hmo]
  · simp [h32]

theorem FactorField.disjoint_symm {f g : FactorField} (h : f.disjoint g) : g.disjoint f := by
  unfold FactorField.disjoint at h ⊢; omega

/-- C12: order independence of the field updates. For every word, three pairwise
non-overlapping fields of width ≥ 1 inside the 32 bits and effective values `n`, `k`, `m`
in `[1, 2 ^ width]`, the clear-and-set updates of the three fields applied one after
another in any of the six orders give the same word, the one `ccu_nkm_set_rate` computes by
clearing the three ranges first and OR-ing in the three values afterwards. -/
theorem encode_update_order_independent (nkm : ccu_nkm) (sel : _ccu_nkm) (reg : Nat)
    (hv : nkm.valid)
    (hn1 : 1 ≤ sel.n) (hn2 : sel.n ≤ 2 ^ nkm.n.width)
    (hk1 : 1 ≤ sel.k) (hk2 : sel.k ≤ 2 ^ nkm.k.width)
    (hm1 : 1 ≤ sel.m) (hm2 : sel.m ≤ 2 ^ nkm.m.width) :
    encode_update (encode_update (encode_update reg nkm.n sel.n) nkm.k sel.k) nkm.m sel.m =
      set_rate_word nkm sel reg ∧
    encode_update (encode_update (encode_update reg nkm.n sel.n) nkm.m sel.m) nkm.k sel.k =
      set_rate_word nkm sel reg ∧
    encode_update (encode_update (encode_update reg nkm.k sel.k) nkm.n sel.n) nkm.m sel.m =
      set_rate_word nkm sel reg ∧
    encode_update (encode_update (encode_update reg nkm.k sel.k) nkm.m sel.m) nkm.n sel.n =
      set_rate_word nkm sel reg ∧
    encode_update (encode_update (encode_update reg nkm.m sel.m) nkm.n sel.n) nkm.k sel.k =
      set_rate_word nkm sel reg ∧
    encode_update (encode_update (encode_update reg nkm.m sel.m) nkm.k sel.k) nkm.n sel.n =
      set_rate_word nkm sel reg := by
  have hv' := hv
  obtain ⟨vn, vk, vm, dnk, dnm, dkm⟩ := hv'
  have base := encode_update_nkm_eq_set_rate_word nkm hv sel hn1 hn2 hk1 hk2 hm1 hm2 reg
  have cnk : ∀ w, encode_update (encode_update w nkm.k sel.k) nkm.n sel.n =
      encode_update (encode_update w nkm.n sel.n) nkm.k sel.k := fun w =>
    encode_update_comm w nkm.k nkm.n vk vn (FactorField.disjoint_symm dnk) _ _ hk1 hk2 hn1 hn2
  have cnm : ∀ w, encode_update (encode_update w nkm.m sel.m) nkm.n sel.n =
      encode_update (encode_update w nkm.n sel.n) nkm.m sel.m := fun w =>
    encode_update_comm w nkm.m nkm.n vm vn (FactorField.disjoint_symm dnm) _ _ hm1 hm2 hn1 hn2
  have ckm : ∀ w, encode_update (encode_update w nkm.m sel.m) nkm.k sel.k =
      encode_update (encode_update w nkm.k sel.k) nkm.m sel.m := fun w =>
    encode_update_comm w nkm.m nkm.k vm vk (FactorField.disjoint_symm dkm) _ _ hm1 hm2 hk1 hk2
  refine ⟨base, ?_, ?_, ?_, ?_, ?_⟩
  · rw [ckm, base]
  · rw [cnk, base]
  · rw [cnm, cnk, base]
  · rw [cnm, ckm, base]
  · rw [cnk, cnm, ckm, base]

/-! ## The operations on the hardware -/

/-- The events of one call of `ccu_nkm_set_rate` that reads `reg0` and writes `w`. -/
theorem set_rate_hw_of_find_best (rba : Nat → Nat → Nat → Nat → Nat × Nat) (wait : Nat → Bool)
    (nkm : ccu_nkm) (rate parent_rate : Nat) (st : hw_state) (sel : _ccu_nkm)
    (h : ccu_nkm_find_best rba parent_rate rate (init_nkm nkm) = some sel) :
    ccu_nkm_set_rate_hw rba wait nkm rate parent_rate st =
      some (0, { reg := set_rate_word nkm sel st.reg,
                 trace := st.trace ++
                  [hw_event.lock_acquire, hw_event.reg_read st.reg,
                    hw_event.reg_write (set_rate_word nkm sel st.reg),
                    hw_event.lock_release,
                    hw_event.lock_wait (wait (set_rate_word nkm sel st.reg))] }) := by
  unfold ccu_nkm_set_rate_hw
  simp only [h, spin_lock_irqsave, readl, writel, spin_unlock_irqrestore,
    ccu_helper_wait_for_lock, set_rate_word, List.append_assoc, List.singleton_append,
    List.cons_append, List.nil_append]

/-- With a primitive that keeps its contract the search of `ccu_nkm_round_rate` and
`ccu_nkm_set_rate` has a result. -/
theorem find_best_init_nkm_some (rba : Nat → Nat → Nat → Nat → Nat × Nat) (nkm : ccu_nkm)
    (rate parent_rate : Nat) (hc : rba_contract rba) (hr : rate < ULONG_MOD) :
    ∃ sel, ccu_nkm_find_best rba parent_rate rate (init_nkm nkm) = some sel := by
  have hm1 : 1 ≤ (init_nkm nkm).max_m := init_nkm_max_m_pos nkm
  obtain ⟨sel, e, _⟩ :=
    ccu_nkm_find_best_selection rba parent_rate rate (init_nkm nkm) hc hm1 hr
  exact ⟨sel, e⟩

/-- C11: `ccu_nkm_set_rate` returns 0 for every target rate, parent rate and register word,
whatever the lock-wait primitive `wait` reports, and also when the search found no
achievable rate: the call has a result and the value returned is 0, in the
statement-by-statement model on the hardware and in `ccu_nkm_set_rate`. -/
theorem ccu_nkm_set_rate_returns_zero (rba : Nat → Nat → Nat → Nat → Nat × Nat)
    (wait : Nat → Bool) (nkm : ccu_nkm) (rate parent_rate : Nat) (st : hw_state)
    (hc : rba_contract rba) (hr : rate < ULONG_MOD) :
    (∃ st1, ccu_nkm_set_rate_hw rba wait nkm rate parent_rate st = some (0, st1)) ∧
    (∃ w, ccu_nkm_set_rate rba nkm rate parent_rate st.reg = some (w, 0)) := by
  obtain ⟨sel, e⟩ := find_best_init_nkm_some rba nkm rate parent_rate hc hr
  constructor
  · exact ⟨_, set_rate_hw_of_find_best rba wait nkm rate parent_rate st sel e⟩
  · refine ⟨set_rate_word nkm sel st.reg, ?_⟩
    unfold ccu_nkm_set_rate
    simp only [e]

/-- C13: `ccu_nkm_recalc_rate` and `ccu_nkm_round_rate` do not mutate the hardware. For
every register word and every argument the register word after either call is the word
before it: `ccu_nkm_recalc_rate` adds one register read to the events and no write,
`ccu_nkm_round_rate` leaves the whole state as it is; both return what the functions
`ccu_nkm_recalc_rate` and `ccu_nkm_round_rate` compute. -/
theorem recalc_rate_round_rate_leave_register (rba : Nat → Nat → Nat → Nat → Nat × Nat)
    (nkm : ccu_nkm) (rate parent_rate : Nat) (st : hw_state) :
    (ccu_nkm_recalc_rate_hw nkm parent_rate st).2.reg = st.reg ∧
    (ccu_nkm_recalc_rate_hw nkm parent_rate st).2.trace =
      st.trace ++ [hw_event.reg_read st.reg] ∧
    (ccu_nkm_recalc_rate_hw nkm parent_rate st).1 =
      ccu_nkm_recalc_rate nkm parent_rate st.reg ∧
    (ccu_nkm_round_rate_hw rba nkm rate parent_rate st).2 = st ∧
    (ccu_nkm_round_rate_hw rba nkm rate parent_rate st).1 =
      ccu_nkm_round_rate rba nkm rate parent_rate :=
  ⟨rfl, rfl, rfl, rfl, rfl⟩

/-- C19: event order of `ccu_nkm_set_rate`. The call has a result, and the events it adds
are exactly lock-acquire, register read, register write, lock-release, lock-wait, the word
written being the one `ccu_nkm_set_rate` computes. Hence there is exactly one register
write and it happens while the lock is held, the stabilization wait comes after the write
and after the release of the lock, and the lock is not held at the end. -/
theorem ccu_nkm_set_rate_event_order (rba : Nat → Nat → Nat → Nat → Nat × Nat)
    (wait : Nat → Bool) (nkm : ccu_nkm) (rate parent_rate : Nat) (st : hw_state)
    (hc : rba_contract rba) (hr : rate < ULONG_MOD) :
    ∃ w,
      ccu_nkm_set_rate rba nkm rate parent_rate st.reg = some (w, 0) ∧
      ccu_nkm_set_rate_hw rba wait nkm rate parent_rate st =
        some (0, { reg := w,
                   trace := st.trace ++
                    [hw_event.lock_acquire, hw_event.reg_read st.reg, hw_event.reg_write w,
                      hw_event.lock_release, hw_event.lock_wait (wait w)] }) ∧
      count_writes [hw_event.lock_acquire, hw_event.reg_read st.reg, hw_event.reg_write w,
        hw_event.lock_release, hw_event.lock_wait (wait w)] = 1 ∧
      writes_under_lock false [hw_event.lock_acquire, hw_event.reg_read st.reg,
        hw_event.reg_write w, hw_event.lock_release, hw_event.lock_wait (wait w)] = true ∧
      waits_after_write_unlocked false false [hw_event.lock_acquire,
        hw_event.reg_read st.reg, hw_event.reg_write w, hw_event.lock_release,
        hw_event.lock_wait (wait w)] = true ∧
      lock_held_after false [hw_event.lock_acquire, hw_event.reg_read st.reg,
        hw_event.reg_write w, hw_event.lock_release, hw_event.lock_wait (wait w)] = false := by
  obtain ⟨sel, e⟩ := find_best_init_nkm_some rba nkm rate parent_rate hc hr
  refine ⟨set_rate_word nkm sel st.reg, ?_,
    set_rate_hw_of_find_best rba wait nkm rate parent_rate st sel e, rfl, rfl, rfl, rfl⟩
  unfold ccu_nkm_set_rate
  simp only [e]


/-! ## Concrete inputs of the hardware operations and of the selection -/

/-- C11, witness: the example clock, `target_rate = 1000000` (no rate achievable),
`parent_rate = 24000000`, register word 0, and a lock-wait whose budget is exhausted. -/
theorem ccu_nkm_set_rate_returns_zero_witness :
    rba_contract rational_best_approximation ∧ 1000000 < ULONG_MOD ∧
    (∃ st1, ccu_nkm_set_rate_hw rational_best_approximation lock_wait_exhausted example_hw
      1000000 24000000 { reg := 0, trace := [] } = some (0, st1)) ∧
    (∃ w, ccu_nkm_set_rate rational_best_approximation example_hw 1000000 24000000
      ({ reg := 0, trace := [] } : hw_state).reg = some (w, 0)) :=
  ⟨rational_best_approximation_contract, by decide,
    ccu_nkm_set_rate_returns_zero rational_best_approximation lock_wait_exhausted example_hw
      1000000 24000000 { reg := 0, trace := [] } rational_best_approximation_contract
      (by decide)⟩

/-- C12, witness: the example clock, the values 25, 1, 1 and the word `0xFFFFFFFF`; the word
written is `0xFFFFF8C0`. The theorem is used for the order M, K, N. -/
theorem encode_update_order_independent_witness :
    example_hw.valid ∧
    (1 ≤ (selection 25 1 1 32 4 16).n ∧
      (selection 25 1 1 32 4 16).n ≤ 2 ^ example_hw.n.width) ∧
    (1 ≤ (selection 25 1 1 32 4 16).k ∧
      (selection 25 1 1 32 4 16).k ≤ 2 ^ example_hw.k.width) ∧
    (1 ≤ (selection 25 1 1 32 4 16).m ∧
      (selection 25 1 1 32 4 16).m ≤ 2 ^ example_hw.m.width) ∧
    set_rate_word example_hw (selection 25 1 1 32 4 16) 4294967295 = 4294965440 ∧
    encode_update (encode_update (encode_update 4294967295 example_hw.m
      (selection 25 1 1 32 4 16).m) example_hw.k (selection 25 1 1 32 4 16).k) example_hw.n
      (selection 25 1 1 32 4 16).n = set_rate_word example_hw (selection 25 1 1 32 4 16)
        4294967295 :=
  ⟨by decide, by decide, by decide, by decide, by decide!,
    (encode_update_order_independent example_hw (selection 25 1 1 32 4 16) 4294967295
      (by decide) (by decide) (by decide) (by decide) (by decide) (by decide)
      (by decide)).2.2.2.2.2⟩

/-- C15, witness: `parent_rate = 10`, `target_rate = 31`, bounds 8, 8, 8. -/
theorem ccu_nkm_find_best_minimises_error_witness :
    rba_contract rational_best_approximation ∧ 1 ≤ (bounds 8 8 8).max_m ∧ 31 < ULONG_MOD ∧
    ∃ sel, ccu_nkm_find_best rational_best_approximation 10 31 (bounds 8 8 8) = some sel ∧
      selection_rate 10 sel ≤ 31 ∧
      (∀ K, 1 ≤ K → K ≤ (bounds 8 8 8).max_k →
        cand_rate rational_best_approximation 10 31 (bounds 8 8 8) K ≤ 31 →
        cand_rate rational_best_approximation 10 31 (bounds 8 8 8) K ≤ selection_rate 10 sel ∧
        31 - selection_rate 10 sel ≤
          31 - cand_rate rational_best_approximation 10 31 (bounds 8 8 8) K) ∧
      ((sel.n = 0 ∧ sel.k = 0 ∧ sel.m = 0 ∧ selection_rate 10 sel = 0) ∨
        (1 ≤ sel.k ∧ sel.k ≤ (bounds 8 8 8).max_k ∧
          selection_rate 10 sel =
            cand_rate rational_best_approximation 10 31 (bounds 8 8 8) sel.k)) :=
  ⟨rational_best_approximation_contract, by decide, by decide,
    ccu_nkm_find_best_minimises_error rational_best_approximation 10 31 (bounds 8 8 8)
      rational_best_approximation_contract (by decide) (by decide)⟩

/-- C17, witness: `parent_rate = 24000000`, `target_rate = 600000000`, bounds 32, 4, 16. -/
theorem ccu_nkm_find_best_dichotomy_witness :
    rba_contract rational_best_approximation ∧ 1 ≤ (bounds 32 4 16).max_m ∧
    600000000 < ULONG_MOD ∧
    24000000 * (bounds 32 4 16).max_n * (bounds 32 4 16).max_k < ULONG_MOD ∧
    ∃ sel, ccu_nkm_find_best rational_best_approximation 24000000 600000000
        (bounds 32 4 16) = some sel ∧
      ((sel.n = 0 ∧ sel.k = 0 ∧ sel.m = 0) ∨
        (1 ≤ sel.n ∧ sel.n ≤ (bounds 32 4 16).max_n ∧ 1 ≤ sel.k ∧
          sel.k ≤ (bounds 32 4 16).max_k ∧ 1 ≤ sel.m ∧ sel.m ≤ (bounds 32 4 16).max_m ∧
          0 < 24000000 * sel.n * sel.k / sel.m ∧
          24000000 * sel.n * sel.k / sel.m ≤ 600000000)) :=
  ⟨rational_best_approximation_contract, by decide, by decide, by decide,
    ccu_nkm_find_best_dichotomy rational_best_approximation 24000000 600000000
      (bounds 32 4 16) rational_best_approximation_contract (by decide) (by decide)
      (by decide)⟩

/-- C18, witness: the example clock with `parent_rate = 24000000` and
`target_rate = 600000000`; the search ends with `best_rate = 600000000`, `n = 25`, `k = 1`,
`m = 1`. -/
theorem ccu_nkm_round_rate_eq_best_rate_witness :
    find_best_run rational_best_approximation 24000000 600000000 (init_nkm example_hw) =
      some { best_rate := 600000000, best_n := 25, best_k := 1, best_m := 1 } ∧
    ccu_nkm_round_rate_ul rational_best_approximation example_hw 600000000 24000000 =
      some 600000000 ∧
    ccu_nkm_round_rate rational_best_approximation example_hw 600000000 24000000 =
      some 600000000 := by
  have hrun : find_best_run rational_best_approximation 24000000 600000000
      (init_nkm example_hw) =
      some { best_rate := 600000000, best_n := 25, best_k := 1, best_m := 1 } := by decide!
  have h := ccu_nkm_round_rate_eq_best_rate rational_best_approximation example_hw 600000000
    24000000 { best_rate := 600000000, best_n := 25, best_k := 1, best_m := 1 } hrun
    (by decide)
  exact ⟨hrun, h.2.2.1, h.2.2.2.2 (by decide)⟩

/-- C19, witness: the example clock, `target_rate = 600000000`, `parent_rate = 24000000`,
register word `0xFFFFFFFF`, no earlier events, a lock-wait whose budget is exhausted. -/
theorem ccu_nkm_set_rate_event_order_witness :
    rba_contract rational_best_approximation ∧ 600000000 < ULONG_MOD ∧
    ccu_nkm_set_rate_hw rational_best_approximation lock_wait_exhausted example_hw 600000000
        24000000 { reg := 4294967295, trace := [] } =
      some (0, { reg := 4294965440,
                 trace := [hw_event.lock_acquire, hw_event.reg_read 4294967295,
                  hw_event.reg_write 4294965440, hw_event.lock_release,
                  hw_event.lock_wait false] }) ∧
    ∃ w,
      ccu_nkm_set_rate rational_best_approximation example_hw 600000000 24000000
        ({ reg := 4294967295, trace := [] } : hw_state).reg = some (w, 0) ∧
      ccu_nkm_set_rate_hw rational_best_approximation lock_wait_exhausted example_hw
          600000000 24000000 { reg := 4294967295, trace := [] } =
        some (0, { reg := w,
                   trace := ({ reg := 4294967295, trace := [] } : hw_state).trace ++
                    [hw_event.lock_acquire,
                      hw_event.reg_read ({ reg := 4294967295, trace := [] } : hw_state).reg,
                      hw_event.reg_write w,
                      hw_event.lock_release, hw_event.lock_wait (lock_wait_exhausted w)] }) ∧
      count_writes [hw_event.lock_acquire,
        hw_event.reg_read ({ reg := 4294967295, trace := [] } : hw_state).reg,
        hw_event.reg_write w,
        hw_event.lock_release, hw_event.lock_wait (lock_wait_exhausted w)] = 1 ∧
      writes_under_lock false [hw_event.lock_acquire,
        hw_event.reg_read ({ reg := 4294967295, trace := [] } : hw_state).reg,
        hw_event.reg_write w, hw_event.lock_release,
        hw_event.lock_wait (lock_wait_exhausted w)] = true ∧
      waits_after_write_unlocked false false [hw_event.lock_acquire,
        hw_event.reg_read ({ reg := 4294967295, trace := [] } : hw_state).reg,
        hw_event.reg_write w, hw_event.lock_release,
        hw_event.lock_wait (lock_wait_exhausted w)] = true ∧
      lock_held_after false [hw_event.lock_acquire,
        hw_event.reg_read ({ reg := 4294967295, trace := [] } : hw_state).reg,
        hw_event.reg_write w, hw_event.lock_release,
        hw_event.lock_wait (lock_wait_exhausted w)] = false :=
  ⟨rational_best_approximation_contract, by decide, by decide!,
    ccu_nkm_set_rate_event_order rational_best_approximation lock_wait_exhausted example_hw
      600000000 24000000 { reg := 4294967295, trace := [] }
      rational_best_approximation_contract (by decide)⟩

end SunxiNg
